import Mathlib

/-!
# Softcut extractor (softcut.hpp)

A shallow embedding of the two passes of the softcut algorithm of the
osm-history-splitter, `SoftcutPassOne` and `SoftcutPassTwo`, together with the
properties of the trackers and of the emitted record sequences.

The input stream is a list of records; the callbacks `node`, `way` and
`relation` of a pass are applied to the records in input order. The state is
`SoftcutInfo`: the list of extracts (one per region) and the shared
`cascading_relations_tracker`.
-/

namespace Softcut

/-! ## Data model -/

/-- Object identifier (`osm_object_id_t`). The trackers are indexed by
non-negative ids only, and no arithmetic is done on ids. -/
abbrev osm_object_id_t := Nat

/-- Modelled from the spec: `growing_bitset`, whose class is declared behind
`cut.hpp` and is not part of `softcut.hpp`. It is a logical set of non-negative
ids: `get` answers `false` for every id never passed to `set`. -/
structure growing_bitset where
  get : osm_object_id_t → Bool

/-- The freshly constructed bitset: no bit is set. -/
def growing_bitset.empty : growing_bitset := ⟨fun _ => false⟩

/-- Marks `pos`; every other bit keeps its value. -/
def growing_bitset.set (b : growing_bitset) (pos : osm_object_id_t) : growing_bitset :=
  ⟨fun i => if i = pos then true else b.get i⟩

/-- One version of a node. The core reads `id`; the position is read by the
region oracle only. -/
structure Node where
  id : osm_object_id_t
  version : Nat
  lon : Int
  lat : Int
deriving DecidableEq

/-- One version of a way: `nodes` is `way->nodes()`, the ordered node refs. -/
structure Way where
  id : osm_object_id_t
  version : Nat
  nodes : List osm_object_id_t
deriving DecidableEq

/-- One relation member: `type` is the character returned by `member.type()`
(n, w or r), `ref` the id it refers to. -/
structure RelationMember where
  type : Char
  ref : osm_object_id_t
deriving DecidableEq

/-- One version of a relation. -/
structure Relation where
  id : osm_object_id_t
  version : Nat
  members : List RelationMember
deriving DecidableEq

/-- One record of the input stream, as handed to one of the three callbacks. -/
inductive Record where
  | node (n : Node)
  | way (w : Way)
  | relation (r : Relation)
deriving DecidableEq

/-- The per-region state `SoftcutExtractInfo`. The fields `contains` (the region
oracle `ExtractInfo::contains`) and `writer` (the records sent to
`ExtractInfo::writer` so far, oldest first) stand for the members inherited from
`ExtractInfo`, which is declared in `cut.hpp`. -/
structure SoftcutExtractInfo where
  contains : Node → Bool
  writer : List Record
  node_tracker : growing_bitset
  extra_node_tracker : growing_bitset
  way_tracker : growing_bitset
  relation_tracker : growing_bitset

/-- The `std::multimap<osm_object_id_t, osm_object_id_t>` of `SoftcutInfo`, kept
as the list of its pairs in insertion order. Pairs with equal keys keep their
insertion order in a multimap, so `equal_range` below enumerates them as the
multimap does. -/
abbrev CascadeIndex := List (osm_object_id_t × osm_object_id_t)

/-- The pairs of the multimap whose key is `id`, in iteration order. -/
def equal_range (m : CascadeIndex) (id : osm_object_id_t) : CascadeIndex :=
  m.filter (fun p => p.1 = id)

/-- The state shared by both passes, `SoftcutInfo`. -/
structure SoftcutInfo where
  extracts : List SoftcutExtractInfo
  cascading_relations_tracker : CascadeIndex

/-- The constructor `SoftcutExtractInfo(name)`: all four trackers are empty.
The region oracle is fixed when the extract is set up; nothing has been written. -/
def SoftcutExtractInfo.new (contains : Node → Bool) : SoftcutExtractInfo :=
  { contains := contains, writer := [],
    node_tracker := growing_bitset.empty, extra_node_tracker := growing_bitset.empty,
    way_tracker := growing_bitset.empty, relation_tracker := growing_bitset.empty }

/-- The state before pass one: one fresh extract per region oracle, and an empty
`cascading_relations_tracker`. -/
def SoftcutInfo.new (regions : List (Node → Bool)) : SoftcutInfo :=
  { extracts := regions.map SoftcutExtractInfo.new, cascading_relations_tracker := [] }

/-! ## Pass one -/

namespace SoftcutPassOne

/-- The callback `SoftcutPassOne::node`: every extract that contains the node
version records the node id in its `node_tracker`. -/
def node (info : SoftcutInfo) (n : Node) : SoftcutInfo :=
  { info with
    extracts := info.extracts.map fun extract =>
      if extract.contains n then
        { extract with node_tracker := extract.node_tracker.set n.id }
      else extract }

/-- The first loop of `SoftcutPassOne::way` over the way nodes: at the first ref
found in `node_tracker` the way id is recorded in `way_tracker` and the loop is
left with `hit = true`. Returns `hit` and the `way_tracker`. -/
def way_scan (extract : SoftcutExtractInfo) (w : Way) :
    List osm_object_id_t → Bool × growing_bitset
  | [] => (false, extract.way_tracker)
  | ref :: rest =>
    if extract.node_tracker.get ref then (true, extract.way_tracker.set w.id)
    else way_scan extract w rest

/-- The second loop of `SoftcutPassOne::way`: every ref of the way version is
recorded in `extra_node_tracker`. -/
def way_extra (extra : growing_bitset) (nodes : List osm_object_id_t) : growing_bitset :=
  nodes.foldl (fun t ref => t.set ref) extra

/-- The body of the loop over the extracts in `SoftcutPassOne::way`. -/
def way_extract (w : Way) (extract : SoftcutExtractInfo) : SoftcutExtractInfo :=
  let r := way_scan extract w w.nodes
  { extract with
    way_tracker := r.2
    extra_node_tracker :=
      if r.1 then way_extra extract.extra_node_tracker w.nodes
      else extract.extra_node_tracker }

/-- The callback `SoftcutPassOne::way`. -/
def way (info : SoftcutInfo) (w : Way) : SoftcutInfo :=
  { info with extracts := info.extracts.map (way_extract w) }

/-- The recursion of `SoftcutPassOne::cascading_relations`, with a bound on the
depth of the recursion: `none` when the bound is reached. The loop runs over
`equal_range id` of the multimap, skips a parent that is already tracked, and
otherwise records the parent and recurses on it. -/
def cascading_relations_fuel (m : CascadeIndex) :
    Nat → growing_bitset → osm_object_id_t → Option growing_bitset
  | 0, _, _ => none
  | fuel + 1, tracker, id =>
    (equal_range m id).foldlM
      (fun t it =>
        if t.get it.2 then some t
        else cascading_relations_fuel m fuel (t.set it.2) it.2)
      tracker

/-- The method `SoftcutPassOne::cascading_relations`, applied to the
`relation_tracker` of an extract. The recursion never gets deeper than the number
of pairs in the multimap (`cascading_relations_fuel_isSome`), so the bound is
never reached. -/
def cascading_relations (m : CascadeIndex) (tracker : growing_bitset)
    (id : osm_object_id_t) : growing_bitset :=
  match cascading_relations_fuel m (m.length + 1) tracker id with
  | some t => t
  | none => tracker

/-- The state of the loop over the members in `SoftcutPassOne::relation`: the
flag `hit`, the `relation_tracker` of the extract, and the multimap. -/
structure MemberScan where
  hit : Bool
  relation_tracker : growing_bitset
  cascading_relations_tracker : CascadeIndex

/-- One iteration of the loop over the members in `SoftcutPassOne::relation`. -/
def relation_member (extract : SoftcutExtractInfo) (r : Relation)
    (s : MemberScan) (member : RelationMember) : MemberScan :=
  let fire : Bool := !s.hit &&
    ((member.type == 'n' && extract.node_tracker.get member.ref) ||
     (member.type == 'w' && extract.way_tracker.get member.ref) ||
     (member.type == 'r' && s.relation_tracker.get member.ref))
  { hit := if fire then true else s.hit
    relation_tracker := if fire then s.relation_tracker.set r.id else s.relation_tracker
    cascading_relations_tracker :=
      if member.type == 'r' then s.cascading_relations_tracker ++ [(member.ref, r.id)]
      else s.cascading_relations_tracker }

/-- The body of the loop over the extracts in `SoftcutPassOne::relation`: the
member loop, then the cascade when the relation was hit. Returns the extract
and the multimap. -/
def relation_extract (r : Relation) (extract : SoftcutExtractInfo) (m : CascadeIndex) :
    SoftcutExtractInfo × CascadeIndex :=
  let s := r.members.foldl (relation_member extract r) ⟨false, extract.relation_tracker, m⟩
  ({ extract with
      relation_tracker :=
        if s.hit then
          cascading_relations s.cascading_relations_tracker s.relation_tracker r.id
        else s.relation_tracker },
   s.cascading_relations_tracker)

/-- The loop over the extracts in `SoftcutPassOne::relation`; the multimap is
handed from one extract to the next. -/
def relation_loop (r : Relation) :
    List SoftcutExtractInfo → CascadeIndex → List SoftcutExtractInfo × CascadeIndex
  | [], m => ([], m)
  | extract :: rest, m =>
    let p := relation_extract r extract m
    let q := relation_loop r rest p.2
    (p.1 :: q.1, q.2)

/-- The callback `SoftcutPassOne::relation`. -/
def relation (info : SoftcutInfo) (r : Relation) : SoftcutInfo :=
  let p := relation_loop r info.extracts info.cascading_relations_tracker
  { extracts := p.1, cascading_relations_tracker := p.2 }

/-- Dispatch of one input record to its callback. -/
def handle (info : SoftcutInfo) : Record → SoftcutInfo
  | .node n => node info n
  | .way w => way info w
  | .relation r => relation info r

/-- Pass one over a whole input stream. -/
def run (input : List Record) (info : SoftcutInfo) : SoftcutInfo :=
  input.foldl handle info

end SoftcutPassOne

/-! ## Pass two -/

namespace SoftcutPassTwo

/-- The callback `SoftcutPassTwo::node`. -/
def node (info : SoftcutInfo) (n : Node) : SoftcutInfo :=
  { info with
    extracts := info.extracts.map fun extract =>
      if extract.node_tracker.get n.id || extract.extra_node_tracker.get n.id then
        { extract with writer := extract.writer ++ [Record.node n] }
      else extract }

/-- The callback `SoftcutPassTwo::way`. -/
def way (info : SoftcutInfo) (w : Way) : SoftcutInfo :=
  { info with
    extracts := info.extracts.map fun extract =>
      if extract.way_tracker.get w.id then
        { extract with writer := extract.writer ++ [Record.way w] }
      else extract }

/-- The callback `SoftcutPassTwo::relation`. -/
def relation (info : SoftcutInfo) (r : Relation) : SoftcutInfo :=
  { info with
    extracts := info.extracts.map fun extract =>
      if extract.relation_tracker.get r.id then
        { extract with writer := extract.writer ++ [Record.relation r] }
      else extract }

/-- Dispatch of one input record to its callback. -/
def handle (info : SoftcutInfo) : Record → SoftcutInfo
  | .node n => node info n
  | .way w => way info w
  | .relation r => relation info r

/-- Pass two over a whole input stream. -/
def run (input : List Record) (info : SoftcutInfo) : SoftcutInfo :=
  input.foldl handle info

end SoftcutPassTwo

/-! ## Vocabulary of the properties -/

/-- The node versions of a stream, in input order. -/
def nodesOf : List Record → List Node
  | [] => []
  | .node n :: rest => n :: nodesOf rest
  | _ :: rest => nodesOf rest

/-- The way versions of a stream, in input order. -/
def waysOf : List Record → List Way
  | [] => []
  | .way w :: rest => w :: waysOf rest
  | _ :: rest => waysOf rest

/-- The relation versions of a stream, in input order. -/
def relationsOf : List Record → List Relation
  | [] => []
  | .relation r :: rest => r :: relationsOf rest
  | _ :: rest => relationsOf rest

/-- The input precondition on the grouping by type: all node versions, then all
way versions, then all relation versions. -/
def typeGrouped (input : List Record) : Prop :=
  input = (nodesOf input).map Record.node ++ (waysOf input).map Record.way
    ++ (relationsOf input).map Record.relation

instance (input : List Record) : Decidable (typeGrouped input) := by
  unfold typeGrouped; infer_instance

/-- The membership predicate of pass two, in the words of the spec: a node is
selected by `node_tracker` or `extra_node_tracker`, a way by `way_tracker`, a
relation by `relation_tracker`. -/
def membership (e : SoftcutExtractInfo) : Record → Bool
  | .node n => e.node_tracker.get n.id || e.extra_node_tracker.get n.id
  | .way w => e.way_tracker.get w.id
  | .relation r => e.relation_tracker.get r.id

/-- The pairs `(member.ref, id)` of the members of type relation in a member
list, in member order. -/
def memberPairs (id : osm_object_id_t) (members : List RelationMember) : CascadeIndex :=
  (members.filter (fun mb => mb.type == 'r')).map (fun mb => (mb.ref, id))

/-- The relation-of-relation pairs `(member.ref, relation.id)` that one relation
version contributes to the multimap, in member order. -/
def cascadePairs (r : Relation) : CascadeIndex :=
  memberPairs r.id r.members

/-- The test made on one member in `SoftcutPassOne::relation`, against the
trackers the extract has when the member loop starts. -/
def memberHit (e : SoftcutExtractInfo) (mb : RelationMember) : Bool :=
  (mb.type == 'n' && e.node_tracker.get mb.ref) ||
  (mb.type == 'w' && e.way_tracker.get mb.ref) ||
  (mb.type == 'r' && e.relation_tracker.get mb.ref)

/-- What `SoftcutPassOne::relation` does to one extract, when `m` is the content
of the multimap after the member loop of that extract. -/
def relationStep (r : Relation) (m : CascadeIndex) (e : SoftcutExtractInfo) :
    SoftcutExtractInfo :=
  { e with
    relation_tracker :=
      if r.members.any (memberHit e) then
        SoftcutPassOne.cascading_relations m (e.relation_tracker.set r.id) r.id
      else e.relation_tracker }

/-- What pass two does to one extract over a whole input: the selected records
are appended to its writer in input order. -/
def emitAll (input : List Record) (e : SoftcutExtractInfo) : SoftcutExtractInfo :=
  { e with writer := e.writer ++ input.filter (membership e) }

/-- The number of pairs of the multimap whose parent is not tracked: the
quantity that bounds the depth of the cascade. -/
def untracked (m : CascadeIndex) (t : growing_bitset) : Nat :=
  (m.filter (fun it => !t.get it.2)).length

/-- The loop body of `cascading_relations`, over an arbitrary recursive call. -/
def cascadeStep (F : growing_bitset → osm_object_id_t → Option growing_bitset)
    (t : growing_bitset) (it : osm_object_id_t × osm_object_id_t) : Option growing_bitset :=
  if t.get it.2 then some t else F (t.set it.2) it.2

/-- What one cascade from `id` does to a tracker `t`, giving `t2`: nothing is
removed; everything added lies in every set that contains `t` and `id` and is
closed under the pairs of the multimap; and every pair whose child is `id` or
newly added has its parent in `t2`. -/
structure Cascaded (m : CascadeIndex) (id : osm_object_id_t) (t t2 : growing_bitset) :
    Prop where
  mono : ∀ x, t.get x = true → t2.get x = true
  sound : ∀ S : osm_object_id_t → Prop, (∀ x, t.get x = true → S x) → S id →
    (∀ it ∈ m, S it.1 → S it.2) → ∀ x, t2.get x = true → S x
  closed : ∀ it ∈ m, (it.1 = id ∨ (t2.get it.1 = true ∧ t.get it.1 = false)) →
    t2.get it.2 = true

/-- What the way phase has recorded in an extract, for the ways `ws` seen: the
ids of the ways with a version that references a tracked node, and all the refs
of the way versions that reference a tracked node. -/
structure WaysRecorded (ws : List Record) (e : SoftcutExtractInfo) : Prop where
  way_iff : ∀ w, e.way_tracker.get w = true ↔
    ∃ v, Record.way v ∈ ws ∧ v.id = w ∧ ∃ ref ∈ v.nodes, e.node_tracker.get ref = true
  extra_iff : ∀ n, e.extra_node_tracker.get n = true ↔
    ∃ v, Record.way v ∈ ws ∧ n ∈ v.nodes ∧ ∃ ref ∈ v.nodes, e.node_tracker.get ref = true

/-- A tracker is closed under the pairs of the multimap: with a child it holds
every parent recorded for that child. -/
def CascadeClosed (m : CascadeIndex) (t : growing_bitset) : Prop :=
  ∀ it ∈ m, t.get it.1 = true → t.get it.2 = true

/-- The set `S` of relation ids obeys the selection rule of the spec over the
relation versions of `input`, for the extract `e`: a relation id is in `S`
whenever some member of some version of it is (a) a node whose id is in
`e.node_tracker`, (b) a way whose id is in `e.way_tracker`, or (c) a relation
whose id is in `S`. -/
def RuleClosed (input : List Record) (e : SoftcutExtractInfo)
    (S : osm_object_id_t → Prop) : Prop :=
  ∀ v, Record.relation v ∈ input → ∀ mb ∈ v.members,
    ((mb.type = 'n' ∧ e.node_tracker.get mb.ref = true) ∨
     (mb.type = 'w' ∧ e.way_tracker.get mb.ref = true) ∨
     (mb.type = 'r' ∧ S mb.ref)) → S v.id

/-- Every pair of the multimap comes from a member of type relation of a
relation version of `input`. -/
def PairsSound (input : List Record) (m : CascadeIndex) : Prop :=
  ∀ it ∈ m, ∃ v, Record.relation v ∈ input ∧ it ∈ cascadePairs v

/-- Every member of type relation of a relation version of `input` has its pair
in the multimap. -/
def PairsComplete (input : List Record) (m : CascadeIndex) : Prop :=
  ∀ v, Record.relation v ∈ input → ∀ it ∈ cascadePairs v, it ∈ m

/-- Every relation version of `input` with a node member in `node_tracker` or
a way member in `way_tracker` has its id in `relation_tracker`. -/
def DirectHits (input : List Record) (e : SoftcutExtractInfo) : Prop :=
  ∀ v, Record.relation v ∈ input → ∀ mb ∈ v.members,
    ((mb.type = 'n' ∧ e.node_tracker.get mb.ref = true) ∨
     (mb.type = 'w' ∧ e.way_tracker.get mb.ref = true)) →
    e.relation_tracker.get v.id = true

/-- The `relation_tracker` lies in every set that obeys the selection rule. -/
def Justified (input : List Record) (e : SoftcutExtractInfo) : Prop :=
  ∀ S : osm_object_id_t → Prop, RuleClosed input e S →
    ∀ x, e.relation_tracker.get x = true → S x

/-- Two records are versions of the same object: same type and same id. -/
def sameObject : Record → Record → Prop
  | .node a, .node b => a.id = b.id
  | .way a, .way b => a.id = b.id
  | .relation a, .relation b => a.id = b.id
  | _, _ => False

/-- A relation id of the input is grounded when some member of some version of
it is a node of the input, a way of the input, or a grounded relation. -/
inductive Grounded (input : List Record) : osm_object_id_t → Prop where
  | node (v : Relation) (mb : RelationMember) (n : Node) :
      Record.relation v ∈ input → mb ∈ v.members → mb.type = 'n' →
      Record.node n ∈ input → n.id = mb.ref → Grounded input v.id
  | way (v : Relation) (mb : RelationMember) (w : Way) :
      Record.relation v ∈ input → mb ∈ v.members → mb.type = 'w' →
      Record.way w ∈ input → w.id = mb.ref → Grounded input v.id
  | relation (v : Relation) (mb : RelationMember) :
      Record.relation v ∈ input → mb ∈ v.members → mb.type = 'r' →
      Grounded input mb.ref → Grounded input v.id

/-- The ids a cascade from `id` reaches through untracked ids only: `x` is
reached when the multimap leads from `id` to `x` over parents none of which is
in the tracker `t`. -/
inductive White (m : CascadeIndex) (t : growing_bitset) (id : osm_object_id_t) :
    osm_object_id_t → Prop where
  | step (p : osm_object_id_t) : (id, p) ∈ m → t.get p = false → White m t id p
  | trans (x p : osm_object_id_t) : White m t id x → (x, p) ∈ m → t.get p = false →
      White m t id p

/-- The number of distinct parent ids of the multimap that are not tracked. -/
def untrackedParents (m : CascadeIndex) (t : growing_bitset) : Nat :=
  ((m.map Prod.snd).dedup.filter (fun p => !t.get p)).length

/-- The pairs recorded for a cycle of two relations: 700 has member relation
800, and 800 has member relation 700. -/
def cycleIndex : CascadeIndex := [(800, 700), (700, 800)]

/-! ## Pass one with the insertion of the pairs moved out of the region loop -/

namespace SoftcutPassOne

/-- The insertion of the pairs of one relation version, once for every member
of type relation, in member order. -/
def insert_pairs (r : Relation) (m : CascadeIndex) : CascadeIndex :=
  r.members.foldl
    (fun acc member => if member.type == 'r' then acc ++ [(member.ref, r.id)] else acc) m

/-- One iteration of the member loop of `SoftcutPassOne::relation` without the
insertion of the pair: the flag `hit` and the `relation_tracker` only. -/
def relation_member_hoisted (extract : SoftcutExtractInfo) (r : Relation)
    (s : Bool × growing_bitset) (member : RelationMember) : Bool × growing_bitset :=
  let fire : Bool := !s.1 &&
    ((member.type == 'n' && extract.node_tracker.get member.ref) ||
     (member.type == 'w' && extract.way_tracker.get member.ref) ||
     (member.type == 'r' && s.2.get member.ref))
  (if fire then true else s.1, if fire then s.2.set r.id else s.2)

/-- The body of the loop over the extracts when the pairs are already in the
multimap `m`. -/
def relation_extract_hoisted (r : Relation) (m : CascadeIndex)
    (extract : SoftcutExtractInfo) : SoftcutExtractInfo :=
  let s := r.members.foldl (relation_member_hoisted extract r)
    (false, extract.relation_tracker)
  { extract with
    relation_tracker := if s.1 then cascading_relations m s.2 r.id else s.2 }

/-- The relation callback with every pair inserted exactly once, before the
loop over the extracts. -/
def relation_hoisted (info : SoftcutInfo) (r : Relation) : SoftcutInfo :=
  let m := insert_pairs r info.cascading_relations_tracker
  { extracts := info.extracts.map (relation_extract_hoisted r m)
    cascading_relations_tracker := m }

/-- Dispatch of one input record, with the hoisted relation callback. -/
def handle_hoisted (info : SoftcutInfo) : Record → SoftcutInfo
  | .node n => node info n
  | .way w => way info w
  | .relation r => relation_hoisted info r

/-- Pass one with the hoisted relation callback. -/
def run_hoisted (input : List Record) (info : SoftcutInfo) : SoftcutInfo :=
  input.foldl handle_hoisted info

end SoftcutPassOne

/-- A node inside the unit box and a way outside it, both members of relation
500. -/
def deadReference : List Record :=
  [.node ⟨1, 1, 0, 0⟩, .node ⟨2, 1, 10, 10⟩, .way ⟨100, 1, [2]⟩,
   .relation ⟨500, 1, [⟨'n', 1⟩, ⟨'w', 100⟩]⟩]

/-- Relation 700 lists itself as a member, before its member node 1. -/
def selfMember : Relation := ⟨700, 1, [⟨'r', 700⟩, ⟨'n', 1⟩, ⟨'r', 800⟩]⟩

/-- Relation 700 with the members of `selfMember` in another order. -/
def selfMemberPermuted : Relation := ⟨700, 1, [⟨'r', 800⟩, ⟨'n', 1⟩, ⟨'r', 700⟩]⟩

/-! ## Example inputs -/

/-- The region of the scenarios: longitude and latitude between -1 and 1. -/
def unitBox (n : Node) : Bool :=
  decide (-1 ≤ n.lon ∧ n.lon ≤ 1 ∧ -1 ≤ n.lat ∧ n.lat ≤ 1)

/-- The region that accepts all coordinates. -/
def everywhere (_ : Node) : Bool := true

/-- Scenario A: node 1 inside the box, node 2 outside, way 100 over both, and
relation 500 with way 100 as member. -/
def scenarioA : List Record :=
  [.node ⟨1, 1, 0, 0⟩, .node ⟨2, 1, 10, 10⟩, .way ⟨100, 1, [1, 2]⟩,
   .relation ⟨500, 1, [⟨'w', 100⟩]⟩]

/-- Scenario C with a way: relation 600 (parent) comes after its child 500. -/
def scenarioC : List Record :=
  [.node ⟨1, 1, 0, 0⟩, .node ⟨2, 1, 10, 10⟩, .way ⟨100, 1, [1, 2]⟩,
   .relation ⟨500, 1, [⟨'n', 1⟩]⟩, .relation ⟨600, 1, [⟨'r', 500⟩]⟩]

/-- Scenario E: node 1 has a version inside the box and a version outside. -/
def scenarioE : List Record :=
  [.node ⟨1, 1, 0, 0⟩, .node ⟨1, 2, 100, 100⟩]

/-- Way 100 has a first version over node 1 (inside the box) and a second
version over node 2 (outside the box). -/
def movedWay : List Record :=
  [.node ⟨1, 1, 0, 0⟩, .node ⟨2, 1, 10, 10⟩, .way ⟨100, 1, [1]⟩, .way ⟨100, 2, [2]⟩]

/-- A node, a way version without node refs and a relation version without
members (as the deleted versions of a history file are). -/
def emptyVersions : List Record :=
  [.node ⟨1, 1, 0, 0⟩, .way ⟨100, 1, []⟩, .relation ⟨500, 1, []⟩]

end Softcut

/-! ## The cascade -/

namespace Softcut

theorem growing_bitset.get_set (b : growing_bitset) (pos i : osm_object_id_t) :
    (b.set pos).get i = (if i = pos then true else b.get i) := rfl

theorem growing_bitset.get_set_self (b : growing_bitset) (pos : osm_object_id_t) :
    (b.set pos).get pos = true := by
  simp [growing_bitset.get_set]

theorem growing_bitset.get_set_of_get (b : growing_bitset) (pos i : osm_object_id_t)
    (h : b.get i = true) : (b.set pos).get i = true := by
  simp [growing_bitset.get_set, h]

theorem growing_bitset.get_empty (i : osm_object_id_t) :
    growing_bitset.empty.get i = false := rfl

theorem forall₂_mem_right {α β : Type} {R : α → β → Prop} {l1 : List α} {l2 : List β}
    (h : List.Forall₂ R l1 l2) : ∀ b ∈ l2, ∃ a ∈ l1, R a b := by
  induction h with
  | nil => intro b hb; cases hb
  | cons hab _ ih =>
    intro b hb
    rcases List.mem_cons.mp hb with rfl | hb
    · exact ⟨_, List.mem_cons_self _ _, hab⟩
    · obtain ⟨a, ha, hr⟩ := ih b hb
      exact ⟨a, List.mem_cons_of_mem _ ha, hr⟩

theorem forall₂_map_eq {α β γ : Type} {R : α → β → Prop} {l1 : List α} {l2 : List β}
    {f : β → γ} {g : α → γ} (h : List.Forall₂ R l1 l2) (hfg : ∀ a b, R a b → f b = g a) :
    l2.map f = l1.map g := by
  induction h with
  | nil => rfl
  | cons hab _ ih => simp [hfg _ _ hab, ih]

/-- From a list of extracts whose oracles are the given regions, in order, and
a property of every extract, to the same property region by region. -/
theorem forall₂_of_map_eq {α β : Type} (f : β → α) (Q : α → β → Prop) :
    ∀ (l0 : List α) (l : List β), l.map f = l0 → (∀ e ∈ l, Q (f e) e) →
      List.Forall₂ Q l0 l := by
  intro l0 l h
  subst h
  induction l with
  | nil => intro _; exact List.Forall₂.nil
  | cons e rest ih =>
    intro hq
    exact List.Forall₂.cons (hq e (List.mem_cons_self _ _))
      (ih (fun a ha => hq a (List.mem_cons_of_mem _ ha)))

theorem untracked_le_length (m : CascadeIndex) (t : growing_bitset) :
    untracked m t ≤ m.length :=
  List.length_filter_le _ _

theorem untracked_mono (m : CascadeIndex) (t t2 : growing_bitset)
    (h : ∀ x, t.get x = true → t2.get x = true) : untracked m t2 ≤ untracked m t := by
  unfold untracked
  apply List.Sublist.length_le
  apply List.monotone_filter_right
  intro a ha
  cases h1 : t.get a.2
  · rfl
  · have h2 := h _ h1
    simp [h2] at ha

theorem untracked_set_lt (m : CascadeIndex) (t : growing_bitset)
    (it : osm_object_id_t × osm_object_id_t) (hit : it ∈ m) (hun : t.get it.2 = false) :
    untracked m (t.set it.2) < untracked m t := by
  unfold untracked
  have hff : m.filter (fun a => !(t.set it.2).get a.2)
      = (m.filter (fun a => !t.get a.2)).filter (fun a => !(t.set it.2).get a.2) := by
    rw [List.filter_filter]
    apply List.filter_congr
    intro a _
    cases h1 : t.get a.2
    · simp
    · simp [growing_bitset.get_set_of_get _ _ _ h1]
  rw [hff]
  apply List.length_filter_lt_length_iff_exists.mpr
  refine ⟨it, ?_, ?_⟩
  · simp [List.mem_filter, hit, hun]
  · simp [growing_bitset.get_set_self]

namespace SoftcutPassOne

theorem cascading_relations_fuel_succ (m : CascadeIndex) (fuel : Nat)
    (t : growing_bitset) (id : osm_object_id_t) :
    cascading_relations_fuel m (fuel + 1) t id
      = (equal_range m id).foldlM (cascadeStep (cascading_relations_fuel m fuel)) t := rfl

/-- The loop of the cascade returns when every recursive call does. -/
theorem cascade_loop_isSome (m : CascadeIndex)
    (F : growing_bitset → osm_object_id_t → Option growing_bitset) (k : Nat)
    (hF : ∀ t id, untracked m t < k →
      ∃ t2, F t id = some t2 ∧ ∀ x, t.get x = true → t2.get x = true) :
    ∀ (l : CascadeIndex), (∀ it ∈ l, it ∈ m) → ∀ t, untracked m t ≤ k →
      ∃ t2, l.foldlM (cascadeStep F) t = some t2 ∧ ∀ x, t.get x = true → t2.get x = true := by
  intro l
  induction l with
  | nil => intro _ t _; exact ⟨t, rfl, fun _ h => h⟩
  | cons it rest ih =>
    intro hl t ht
    have hrest : ∀ a ∈ rest, a ∈ m := fun a ha => hl a (List.mem_cons_of_mem _ ha)
    cases hg : t.get it.2
    · have hlt : untracked m (t.set it.2) < k :=
        lt_of_lt_of_le (untracked_set_lt m t it (hl it (List.mem_cons_self _ _)) hg) ht
      obtain ⟨t1, h1, hm1⟩ := hF (t.set it.2) it.2 hlt
      have hle1 : untracked m t1 ≤ k :=
        le_trans (untracked_mono m _ _ hm1) (le_of_lt hlt)
      obtain ⟨t2, h2, hm2⟩ := ih hrest t1 hle1
      refine ⟨t2, ?_, ?_⟩
      · simp [List.foldlM_cons, cascadeStep, hg, h1, h2]
      · intro x hx
        exact hm2 x (hm1 x (growing_bitset.get_set_of_get _ _ _ hx))
    · obtain ⟨t2, h2, hm2⟩ := ih hrest t ht
      refine ⟨t2, ?_, hm2⟩
      simp [List.foldlM_cons, cascadeStep, hg, h2]

/-- With more fuel than untracked parents the cascade returns, and it only adds
ids to the tracker. -/
theorem cascading_relations_fuel_some (m : CascadeIndex) :
    ∀ (fuel : Nat) (t : growing_bitset) (id : osm_object_id_t), untracked m t < fuel →
      ∃ t2, cascading_relations_fuel m fuel t id = some t2 ∧
        ∀ x, t.get x = true → t2.get x = true := by
  intro fuel
  induction fuel with
  | zero => intro t id h; exact absurd h (Nat.not_lt_zero _)
  | succ fuel ih =>
    intro t id h
    rw [cascading_relations_fuel_succ]
    apply cascade_loop_isSome m _ fuel ih
    · intro it hit
      exact (List.mem_filter.mp hit).1
    · exact Nat.lt_succ_iff.mp h

/-- The bound used by `cascading_relations` is never reached. -/
theorem cascading_relations_fuel_isSome (m : CascadeIndex) (t : growing_bitset)
    (id : osm_object_id_t) :
    ∃ t2, cascading_relations_fuel m (m.length + 1) t id = some t2 := by
  obtain ⟨t2, h, _⟩ := cascading_relations_fuel_some m (m.length + 1) t id
    (Nat.lt_succ_of_le (untracked_le_length m t))
  exact ⟨t2, h⟩

/-- What the loop of the cascade over the pairs `l` of key `id` does, when every
recursive call behaves as a cascade. -/
theorem cascade_loop_spec (m : CascadeIndex)
    (F : growing_bitset → osm_object_id_t → Option growing_bitset)
    (hF : ∀ t id t2, F t id = some t2 → Cascaded m id t t2) (id : osm_object_id_t) :
    ∀ (l : CascadeIndex), (∀ it ∈ l, it ∈ m ∧ it.1 = id) → ∀ t t2,
      l.foldlM (cascadeStep F) t = some t2 →
      (∀ x, t.get x = true → t2.get x = true) ∧
      (∀ S : osm_object_id_t → Prop, (∀ x, t.get x = true → S x) → S id →
        (∀ it ∈ m, S it.1 → S it.2) → ∀ x, t2.get x = true → S x) ∧
      (∀ it ∈ l, t2.get it.2 = true) ∧
      (∀ it ∈ m, t2.get it.1 = true → t.get it.1 = false → t2.get it.2 = true) := by
  intro l
  induction l with
  | nil =>
    intro _ t t2 h
    simp only [List.foldlM_nil, pure, Option.some.injEq] at h
    subst h
    refine ⟨fun _ h => h, fun S hS _ _ x hx => hS x hx, ?_, ?_⟩
    · intro it hit; cases hit
    · intro it _ h1 h2; rw [h1] at h2; cases h2
  | cons it rest ih =>
    intro hl t t2 h
    have hrest : ∀ a ∈ rest, a ∈ m ∧ a.1 = id :=
      fun a ha => hl a (List.mem_cons_of_mem _ ha)
    obtain ⟨hitm, hitid⟩ := hl it (List.mem_cons_self _ _)
    rw [List.foldlM_cons] at h
    cases hg : t.get it.2
    · -- the parent is recorded and the cascade recurses on it
      simp only [cascadeStep, hg, Bool.false_eq_true, if_false] at h
      cases h1 : F (t.set it.2) it.2 with
      | none => rw [h1] at h; cases h
      | some t1 =>
        rw [h1] at h
        have hc := hF _ _ _ h1
        obtain ⟨hm, hs, hc1, hc2⟩ := ih hrest t1 t2 h
        have hmono : ∀ x, t.get x = true → t2.get x = true :=
          fun x hx => hm x (hc.mono x (growing_bitset.get_set_of_get _ _ _ hx))
        have hpar : t1.get it.2 = true := hc.mono _ (growing_bitset.get_set_self _ _)
        refine ⟨hmono, ?_, ?_, ?_⟩
        · intro S hS hid hcl x hx
          have hSp : S it.2 := hcl it hitm (hitid ▸ hid)
          apply hs S _ hid hcl x hx
          apply hc.sound S _ hSp hcl
          intro y hy
          rw [growing_bitset.get_set] at hy
          by_cases hyp : y = it.2
          · exact hyp ▸ hSp
          · rw [if_neg hyp] at hy; exact hS y hy
        · intro a ha
          rcases List.mem_cons.mp ha with rfl | ha
          · exact hm _ hpar
          · exact hc1 a ha
        · intro a ha h2 h0
          cases h1a : t1.get a.1
          · exact hc2 a ha h2 h1a
          · apply hm
            apply hc.closed a ha
            by_cases hap : a.1 = it.2
            · exact Or.inl hap
            · refine Or.inr ⟨h1a, ?_⟩
              rw [growing_bitset.get_set, if_neg hap]; exact h0
    · -- the parent is already tracked: skipped
      simp only [cascadeStep, hg, if_true] at h
      obtain ⟨hm, hs, hc1, hc2⟩ := ih hrest t t2 h
      refine ⟨hm, hs, ?_, hc2⟩
      intro a ha
      rcases List.mem_cons.mp ha with rfl | ha
      · exact hm _ hg
      · exact hc1 a ha

/-- Whenever the bounded cascade returns, it has behaved as a cascade. -/
theorem cascading_relations_fuel_spec (m : CascadeIndex) :
    ∀ (fuel : Nat) (t : growing_bitset) (id : osm_object_id_t) (t2 : growing_bitset),
      cascading_relations_fuel m fuel t id = some t2 → Cascaded m id t t2 := by
  intro fuel
  induction fuel with
  | zero => intro t id t2 h; cases h
  | succ fuel ih =>
    intro t id t2 h
    rw [cascading_relations_fuel_succ] at h
    obtain ⟨hm, hs, hc1, hc2⟩ := cascade_loop_spec m _ ih id (equal_range m id)
      (fun it hit => ⟨(List.mem_filter.mp hit).1, by simpa using (List.mem_filter.mp hit).2⟩)
      t t2 h
    refine ⟨hm, hs, ?_⟩
    intro it hit hcase
    rcases hcase with hkey | ⟨h2, h0⟩
    · exact hc1 it (List.mem_filter.mpr ⟨hit, by simpa using hkey⟩)
    · exact hc2 it hit h2 h0

/-- The method `cascading_relations` behaves as a cascade. -/
theorem cascading_relations_spec (m : CascadeIndex) (t : growing_bitset)
    (id : osm_object_id_t) : Cascaded m id t (cascading_relations m t id) := by
  obtain ⟨t2, h⟩ := cascading_relations_fuel_isSome m t id
  have hc := cascading_relations_fuel_spec m _ t id t2 h
  unfold cascading_relations
  rw [h]
  exact hc

/-! ## The member loop of `SoftcutPassOne::relation` -/

theorem memberPairs_cons (id : osm_object_id_t) (mb : RelationMember)
    (rest : List RelationMember) :
    memberPairs id (mb :: rest)
      = (if mb.type == 'r' then [(mb.ref, id)] else []) ++ memberPairs id rest := by
  unfold memberPairs
  by_cases h : (mb.type == 'r') = true <;> simp [List.filter_cons, h]

theorem mem_memberPairs (id : osm_object_id_t) (members : List RelationMember)
    (it : osm_object_id_t × osm_object_id_t) :
    it ∈ memberPairs id members ↔
      ∃ mb ∈ members, mb.type = 'r' ∧ mb.ref = it.1 ∧ it.2 = id := by
  unfold memberPairs
  simp only [List.mem_map, List.mem_filter, beq_iff_eq]
  constructor
  · rintro ⟨mb, ⟨hmb, hty⟩, rfl⟩
    exact ⟨mb, hmb, hty, rfl, rfl⟩
  · rintro ⟨mb, hmb, hty, href, hid⟩
    refine ⟨mb, ⟨hmb, hty⟩, ?_⟩
    rw [href, ← hid]

/-- Once `hit` is set, the rest of the member loop only inserts pairs. -/
theorem relation_member_foldl_of_hit (e : SoftcutExtractInfo) (r : Relation) :
    ∀ (members : List RelationMember) (s : MemberScan), s.hit = true →
      members.foldl (relation_member e r) s
        = ⟨true, s.relation_tracker,
            s.cascading_relations_tracker ++ memberPairs r.id members⟩ := by
  intro members
  induction members with
  | nil =>
    intro s hs
    cases s
    simp_all [memberPairs]
  | cons mb rest ih =>
    intro s hs
    rw [List.foldl_cons, ih _ (by simp [relation_member, hs])]
    simp [relation_member, hs, memberPairs_cons]
    split <;> simp

/-- The member loop: `hit` is set exactly when some member passes the test
against the trackers as they are when the loop starts, the relation id is then
recorded, and the pairs of the members of type relation are appended. -/
theorem relation_member_foldl (e : SoftcutExtractInfo) (r : Relation) :
    ∀ (members : List RelationMember) (m : CascadeIndex),
      members.foldl (relation_member e r) ⟨false, e.relation_tracker, m⟩
        = ⟨members.any (memberHit e),
            if members.any (memberHit e) then e.relation_tracker.set r.id
            else e.relation_tracker,
            m ++ memberPairs r.id members⟩ := by
  intro members
  induction members with
  | nil => intro m; simp [memberPairs]
  | cons mb rest ih =>
    intro m
    rw [List.foldl_cons]
    by_cases hfire : memberHit e mb = true
    · have hstep : relation_member e r ⟨false, e.relation_tracker, m⟩ mb
          = ⟨true, e.relation_tracker.set r.id,
              if mb.type == 'r' then m ++ [(mb.ref, r.id)] else m⟩ := by
        unfold memberHit at hfire
        simp [relation_member, hfire]
      rw [hstep, relation_member_foldl_of_hit e r rest _ rfl]
      simp [hfire, memberPairs_cons]
      split <;> simp
    · have hstep : relation_member e r ⟨false, e.relation_tracker, m⟩ mb
          = ⟨false, e.relation_tracker,
              if mb.type == 'r' then m ++ [(mb.ref, r.id)] else m⟩ := by
        unfold memberHit at hfire
        simp [relation_member, hfire]
      rw [hstep]
      split
      · rw [ih]; simp [hfire, memberPairs_cons, *]
      · rw [ih]; simp [hfire, memberPairs_cons, *]

/-- The body of the loop over the extracts, in closed form. -/
theorem relation_extract_eq (r : Relation) (e : SoftcutExtractInfo) (m : CascadeIndex) :
    relation_extract r e m
      = (relationStep r (m ++ cascadePairs r) e, m ++ cascadePairs r) := by
  unfold relation_extract cascadePairs relationStep
  rw [relation_member_foldl]
  by_cases h : r.members.any (memberHit e) = true <;> simp [h]

/-- The loop over the extracts: every extract is stepped with a multimap that
holds the old pairs and the pairs of this relation version, and in the end the
multimap holds exactly those pairs (when there is an extract at all). -/
theorem relation_loop_spec (r : Relation) :
    ∀ (es : List SoftcutExtractInfo) (m : CascadeIndex),
      List.Forall₂
        (fun e e2 => ∃ m2, (∀ it, it ∈ m2 ↔ it ∈ m ∨ it ∈ cascadePairs r) ∧
          e2 = relationStep r m2 e)
        es (relation_loop r es m).1 ∧
      (∀ it, it ∈ (relation_loop r es m).2 ↔ it ∈ m ∨ (es ≠ [] ∧ it ∈ cascadePairs r)) := by
  intro es
  induction es with
  | nil => intro m; simp [relation_loop]
  | cons e rest ih =>
    intro m
    obtain ⟨h1, h2⟩ := ih (m ++ cascadePairs r)
    simp only [relation_loop, relation_extract_eq]
    refine ⟨List.Forall₂.cons ⟨m ++ cascadePairs r, by simp, rfl⟩ ?_, ?_⟩
    · refine h1.imp ?_
      rintro a b ⟨m2, hm2, hb⟩
      refine ⟨m2, ?_, hb⟩
      intro it
      rw [hm2 it, List.mem_append]
      tauto
    · intro it
      rw [h2 it, List.mem_append]
      simp only [ne_eq, reduceCtorEq, not_false_eq_true, true_and]
      tauto

/-! ## The callbacks, extract by extract -/

theorem mem_node_extracts (info : SoftcutInfo) (n : Node) (e2 : SoftcutExtractInfo)
    (h : e2 ∈ (node info n).extracts) :
    ∃ e ∈ info.extracts,
      e2 = if e.contains n then { e with node_tracker := e.node_tracker.set n.id } else e := by
  simp only [node, List.mem_map] at h
  obtain ⟨e, he, rfl⟩ := h
  exact ⟨e, he, rfl⟩

theorem mem_way_extracts (info : SoftcutInfo) (w : Way) (e2 : SoftcutExtractInfo)
    (h : e2 ∈ (way info w).extracts) : ∃ e ∈ info.extracts, e2 = way_extract w e := by
  simp only [way, List.mem_map] at h
  obtain ⟨e, he, rfl⟩ := h
  exact ⟨e, he, rfl⟩

theorem relation_forall₂ (info : SoftcutInfo) (r : Relation) :
    List.Forall₂
      (fun e e2 => ∃ m2,
        (∀ it, it ∈ m2 ↔ it ∈ info.cascading_relations_tracker ∨ it ∈ cascadePairs r) ∧
        e2 = relationStep r m2 e)
      info.extracts (relation info r).extracts :=
  (relation_loop_spec r info.extracts info.cascading_relations_tracker).1

theorem mem_relation_tracker (info : SoftcutInfo) (r : Relation)
    (it : osm_object_id_t × osm_object_id_t) :
    it ∈ (relation info r).cascading_relations_tracker ↔
      it ∈ info.cascading_relations_tracker ∨ (info.extracts ≠ [] ∧ it ∈ cascadePairs r) :=
  (relation_loop_spec r info.extracts info.cascading_relations_tracker).2 it

theorem mem_relation_extracts (info : SoftcutInfo) (r : Relation) (e2 : SoftcutExtractInfo)
    (h : e2 ∈ (relation info r).extracts) :
    ∃ e ∈ info.extracts, ∃ m2,
      (∀ it, it ∈ m2 ↔ it ∈ info.cascading_relations_tracker ∨ it ∈ cascadePairs r) ∧
      e2 = relationStep r m2 e :=
  forall₂_mem_right (relation_forall₂ info r) e2 h

/-- The first loop over the way nodes finds a hit exactly when some ref is in
`node_tracker`, and then records the way id. -/
theorem way_scan_eq (e : SoftcutExtractInfo) (w : Way) :
    ∀ nodes : List osm_object_id_t,
      way_scan e w nodes
        = (nodes.any e.node_tracker.get,
           if nodes.any e.node_tracker.get then e.way_tracker.set w.id else e.way_tracker) := by
  intro nodes
  induction nodes with
  | nil => simp [way_scan]
  | cons ref rest ih =>
    by_cases h : e.node_tracker.get ref = true
    · simp [way_scan, h]
    · simp [way_scan, h, ih]

/-- The second loop over the way nodes records exactly the refs of the way. -/
theorem way_extra_get (nodes : List osm_object_id_t) :
    ∀ (extra : growing_bitset) (i : osm_object_id_t),
      (way_extra extra nodes).get i = (extra.get i || decide (i ∈ nodes)) := by
  induction nodes with
  | nil => intro extra i; simp [way_extra]
  | cons ref rest ih =>
    intro extra i
    have := ih (extra.set ref) i
    simp only [way_extra, List.foldl_cons] at this ⊢
    rw [this, growing_bitset.get_set]
    by_cases h : i = ref <;> simp [h]

/-! ## Runs -/

theorem run_nil (info : SoftcutInfo) : run [] info = info := rfl

theorem run_append (a b : List Record) (info : SoftcutInfo) :
    run (a ++ b) info = run b (run a info) :=
  List.foldl_append _ _ _ _

/-- Induction along a run of pass one: an invariant of the processed prefix and
the state that holds at the start and is kept by every callback holds at the end. -/
theorem run_invariant (Inv : List Record → SoftcutInfo → Prop) (info : SoftcutInfo)
    (h0 : Inv [] info)
    (hstep : ∀ pre s x, Inv pre s → Inv (pre ++ [x]) (handle s x)) :
    ∀ input, Inv input (run input info) := by
  intro input
  induction input using List.reverseRecOn with
  | nil => exact h0
  | append_singleton pre x ih =>
    rw [run_append]
    exact hstep pre _ x ih

/-- Pass one changes neither the region oracle nor the writer of an extract,
and keeps the extracts in place. -/
theorem handle_contains_writer (info : SoftcutInfo) (x : Record) :
    (handle info x).extracts.map (fun e => (e.contains, e.writer))
      = info.extracts.map (fun e => (e.contains, e.writer)) := by
  cases x with
  | node n =>
    simp only [handle, node, List.map_map]
    apply List.map_congr_left
    intro e _
    simp only [Function.comp]
    split <;> rfl
  | way w =>
    simp only [handle, way, List.map_map]
    apply List.map_congr_left
    intro e _
    rfl
  | relation r =>
    apply forall₂_map_eq (relation_forall₂ info r)
    rintro a b ⟨m2, _, rfl⟩
    rfl

theorem run_contains_writer (input : List Record) (info : SoftcutInfo) :
    (run input info).extracts.map (fun e => (e.contains, e.writer))
      = info.extracts.map (fun e => (e.contains, e.writer)) := by
  apply run_invariant
    (fun _ s => s.extracts.map (fun e => (e.contains, e.writer))
      = info.extracts.map (fun e => (e.contains, e.writer)))
  · rfl
  · intro pre s x ih
    rw [handle_contains_writer, ih]

/-- The fresh extracts carry the region oracles, in order. -/
theorem new_extracts_contains (regions : List (Node → Bool)) :
    (SoftcutInfo.new regions).extracts.map (fun e => e.contains) = regions := by
  simp [SoftcutInfo.new, SoftcutExtractInfo.new, Function.comp_def]

theorem run_contains (input : List Record) (info : SoftcutInfo) :
    (run input info).extracts.map (fun e => e.contains)
      = info.extracts.map (fun e => e.contains) := by
  have h := congrArg (List.map Prod.fst) (run_contains_writer input info)
  simpa [List.map_map, Function.comp_def] using h

theorem run_writer (input : List Record) (info : SoftcutInfo) :
    (run input info).extracts.map (fun e => e.writer)
      = info.extracts.map (fun e => e.writer) := by
  have h := congrArg (List.map Prod.snd) (run_contains_writer input info)
  simpa [List.map_map, Function.comp_def] using h

/-- After pass one from the fresh state, the extracts are the regions in order. -/
theorem run_new_contains (input : List Record) (regions : List (Node → Bool)) :
    (run input (SoftcutInfo.new regions)).extracts.map (fun e => e.contains) = regions := by
  rw [run_contains, new_extracts_contains]

/-- After pass one from the fresh state, nothing has been written. -/
theorem run_new_writer (input : List Record) (regions : List (Node → Bool)) :
    ∀ e ∈ (run input (SoftcutInfo.new regions)).extracts, e.writer = [] := by
  intro e he
  have h := run_writer input (SoftcutInfo.new regions)
  have h2 : e.writer ∈ (run input (SoftcutInfo.new regions)).extracts.map (fun e => e.writer) :=
    List.mem_map_of_mem _ he
  rw [h] at h2
  simp [SoftcutInfo.new, SoftcutExtractInfo.new] at h2
  exact h2.2

/-- The `node_tracker` of every extract holds exactly the ids of the node
versions seen so far that the region contains. -/
theorem run_node_tracker (input : List Record) (regions : List (Node → Bool)) :
    ∀ e ∈ (run input (SoftcutInfo.new regions)).extracts, ∀ n,
      e.node_tracker.get n = true ↔
        ∃ v, Record.node v ∈ input ∧ v.id = n ∧ e.contains v = true := by
  apply run_invariant
    (fun pre s => ∀ e ∈ s.extracts, ∀ n,
      e.node_tracker.get n = true ↔ ∃ v, Record.node v ∈ pre ∧ v.id = n ∧ e.contains v = true)
  · intro e he n
    simp only [SoftcutInfo.new, List.mem_map] at he
    obtain ⟨c, _, rfl⟩ := he
    simp [SoftcutExtractInfo.new, growing_bitset.get_empty]
  · intro pre s x ih e2 he2 n
    cases x with
    | node n0 =>
      obtain ⟨e, he, rfl⟩ := mem_node_extracts s n0 e2 he2
      have hi := ih e he n
      by_cases hc : e.contains n0 = true
      · simp only [hc, if_true, growing_bitset.get_set, List.mem_append, List.mem_singleton,
          Record.node.injEq]
        constructor
        · intro h
          by_cases hn : n = n0.id
          · exact ⟨n0, Or.inr rfl, hn.symm, hc⟩
          · rw [if_neg hn] at h
            obtain ⟨v, hv, hid, hcv⟩ := hi.mp h
            exact ⟨v, Or.inl hv, hid, hcv⟩
        · rintro ⟨v, hv | rfl, hid, hcv⟩
          · have := hi.mpr ⟨v, hv, hid, hcv⟩
            simp [this]
          · simp [hid]
      · simp only [hc, Bool.false_eq_true, if_false, List.mem_append, List.mem_singleton,
          Record.node.injEq]
        rw [hi]
        constructor
        · rintro ⟨v, hv, hid, hcv⟩
          exact ⟨v, Or.inl hv, hid, hcv⟩
        · rintro ⟨v, hv | rfl, hid, hcv⟩
          · exact ⟨v, hv, hid, hcv⟩
          · exact absurd hcv hc
    | way w =>
      obtain ⟨e, he, rfl⟩ := mem_way_extracts s w e2 he2
      have hi := ih e he n
      simpa [way_extract] using hi
    | relation r =>
      obtain ⟨e, he, m2, _, rfl⟩ := mem_relation_extracts s r e2 he2
      have hi := ih e he n
      simpa [relationStep] using hi

/-- Induction along a run of pass one over records of one sort. -/
theorem run_invariant_on (P : Record → Prop) (Inv : List Record → SoftcutInfo → Prop)
    (info : SoftcutInfo) (h0 : Inv [] info)
    (hstep : ∀ pre s x, P x → Inv pre s → Inv (pre ++ [x]) (handle s x)) :
    ∀ input, (∀ x ∈ input, P x) → Inv input (run input info) := by
  intro input
  induction input using List.reverseRecOn with
  | nil => intro _; exact h0
  | append_singleton pre x ih =>
    intro hP
    rw [run_append]
    exact hstep pre _ x (hP x (by simp)) (ih (fun y hy => hP y (by simp [hy])))

/-! ## The way phase -/

theorem way_extract_way_tracker (w : Way) (e : SoftcutExtractInfo) (x : osm_object_id_t) :
    (way_extract w e).way_tracker.get x = true ↔
      e.way_tracker.get x = true ∨
        (x = w.id ∧ ∃ ref ∈ w.nodes, e.node_tracker.get ref = true) := by
  simp only [way_extract, way_scan_eq]
  by_cases h : w.nodes.any e.node_tracker.get = true
  · have h2 := List.any_eq_true.mp h
    simp only [h, if_true, growing_bitset.get_set]
    by_cases hx : x = w.id
    · simp [hx, h2]
    · simp [hx]
  · have h2 : ¬ ∃ ref ∈ w.nodes, e.node_tracker.get ref = true :=
      fun hex => h (List.any_eq_true.mpr hex)
    simp [h, h2]

theorem way_extract_extra_node_tracker (w : Way) (e : SoftcutExtractInfo)
    (n : osm_object_id_t) :
    (way_extract w e).extra_node_tracker.get n = true ↔
      e.extra_node_tracker.get n = true ∨
        (n ∈ w.nodes ∧ ∃ ref ∈ w.nodes, e.node_tracker.get ref = true) := by
  simp only [way_extract, way_scan_eq]
  by_cases h : w.nodes.any e.node_tracker.get = true
  · have h2 := List.any_eq_true.mp h
    simp [h, way_extra_get, h2]
  · have h2 : ¬ ∃ ref ∈ w.nodes, e.node_tracker.get ref = true :=
      fun hex => h (List.any_eq_true.mpr hex)
    simp [h, h2]

theorem waysRecorded_way_extract (pre : List Record) (w : Way) (e : SoftcutExtractInfo)
    (h : WaysRecorded pre e) : WaysRecorded (pre ++ [Record.way w]) (way_extract w e) := by
  constructor
  · intro x
    rw [way_extract_way_tracker, h.way_iff]
    simp only [List.mem_append, List.mem_singleton, Record.way.injEq]
    constructor
    · rintro (⟨v, hv, hid, href⟩ | ⟨hx, href⟩)
      · exact ⟨v, Or.inl hv, hid, href⟩
      · exact ⟨w, Or.inr rfl, hx.symm, href⟩
    · rintro ⟨v, hv | rfl, hid, href⟩
      · exact Or.inl ⟨v, hv, hid, href⟩
      · exact Or.inr ⟨hid.symm, href⟩
  · intro n
    rw [way_extract_extra_node_tracker, h.extra_iff]
    simp only [List.mem_append, List.mem_singleton, Record.way.injEq]
    constructor
    · rintro (⟨v, hv, hn, href⟩ | ⟨hn, href⟩)
      · exact ⟨v, Or.inl hv, hn, href⟩
      · exact ⟨w, Or.inr rfl, hn, href⟩
    · rintro ⟨v, hv | rfl, hn, href⟩
      · exact Or.inl ⟨v, hv, hn, href⟩
      · exact Or.inr ⟨hn, href⟩

/-! ## The relation callback on one extract -/

theorem memberHit_iff (e : SoftcutExtractInfo) (mb : RelationMember) :
    memberHit e mb = true ↔
      (mb.type = 'n' ∧ e.node_tracker.get mb.ref = true) ∨
      (mb.type = 'w' ∧ e.way_tracker.get mb.ref = true) ∨
      (mb.type = 'r' ∧ e.relation_tracker.get mb.ref = true) := by
  simp [memberHit, or_assoc]

theorem relationStep_of_not_hit (r : Relation) (m : CascadeIndex) (e : SoftcutExtractInfo)
    (h : ¬ r.members.any (memberHit e) = true) : relationStep r m e = e := by
  cases e
  simp [relationStep, h]

theorem relationStep_of_hit (r : Relation) (m : CascadeIndex) (e : SoftcutExtractInfo)
    (h : r.members.any (memberHit e) = true) :
    Cascaded m r.id (e.relation_tracker.set r.id) (relationStep r m e).relation_tracker := by
  simp only [relationStep, h, if_true]
  exact cascading_relations_spec m _ r.id

/-- The relation callback never removes an id from `relation_tracker`. -/
theorem relationStep_mono (r : Relation) (m : CascadeIndex) (e : SoftcutExtractInfo)
    (x : osm_object_id_t) (h : e.relation_tracker.get x = true) :
    (relationStep r m e).relation_tracker.get x = true := by
  by_cases hany : r.members.any (memberHit e) = true
  · exact (relationStep_of_hit r m e hany).mono x (growing_bitset.get_set_of_get _ _ _ h)
  · rw [relationStep_of_not_hit r m e hany]; exact h

/-- A relation version with a member that passes the test is recorded. -/
theorem relationStep_records (r : Relation) (m : CascadeIndex) (e : SoftcutExtractInfo)
    (mb : RelationMember) (hmb : mb ∈ r.members) (hhit : memberHit e mb = true) :
    (relationStep r m e).relation_tracker.get r.id = true := by
  have hany : r.members.any (memberHit e) = true := List.any_eq_true.mpr ⟨mb, hmb, hhit⟩
  exact (relationStep_of_hit r m e hany).mono _ (growing_bitset.get_set_self _ _)

/-- The relation callback keeps `relation_tracker` closed under the pairs of
the multimap. -/
theorem relationStep_closed (r : Relation) (crt m : CascadeIndex) (e : SoftcutExtractInfo)
    (hm : ∀ it, it ∈ m ↔ it ∈ crt ∨ it ∈ cascadePairs r)
    (hcl : CascadeClosed crt e.relation_tracker) :
    CascadeClosed m (relationStep r m e).relation_tracker := by
  intro it hit h1
  by_cases hany : r.members.any (memberHit e) = true
  · have hc := relationStep_of_hit r m e hany
    by_cases hk : it.1 = r.id
    · exact hc.closed it hit (Or.inl hk)
    · cases h0 : (e.relation_tracker.set r.id).get it.1
      · exact hc.closed it hit (Or.inr ⟨h1, h0⟩)
      · have h0e : e.relation_tracker.get it.1 = true := by
          rw [growing_bitset.get_set, if_neg hk] at h0; exact h0
        apply hc.mono
        rcases (hm it).mp hit with hin | hin
        · exact growing_bitset.get_set_of_get _ _ _ (hcl it hin h0e)
        · obtain ⟨mb, _, _, _, hid⟩ := (mem_memberPairs _ _ _).mp hin
          rw [hid]; exact growing_bitset.get_set_self _ _
  · rw [relationStep_of_not_hit r m e hany] at h1 ⊢
    rcases (hm it).mp hit with hin | hin
    · exact hcl it hin h1
    · obtain ⟨mb, hmb, hty, href, _⟩ := (mem_memberPairs _ _ _).mp hin
      exfalso
      apply hany
      apply List.any_eq_true.mpr
      refine ⟨mb, hmb, (memberHit_iff e mb).mpr (Or.inr (Or.inr ⟨hty, ?_⟩))⟩
      rw [href]; exact h1

/-- Everything the relation callback adds to `relation_tracker` lies in every
set that obeys the selection rule. -/
theorem relationStep_justified (r : Relation) (pre : List Record) (crt m : CascadeIndex)
    (e : SoftcutExtractInfo) (S : osm_object_id_t → Prop)
    (hm : ∀ it, it ∈ m ↔ it ∈ crt ∨ it ∈ cascadePairs r)
    (hps : PairsSound pre crt)
    (hS : RuleClosed (pre ++ [Record.relation r]) e S)
    (hin : ∀ x, e.relation_tracker.get x = true → S x) :
    ∀ x, (relationStep r m e).relation_tracker.get x = true → S x := by
  by_cases hany : r.members.any (memberHit e) = true
  · have hc := relationStep_of_hit r m e hany
    obtain ⟨mb, hmb, hhit⟩ := List.any_eq_true.mp hany
    have hr : Record.relation r ∈ pre ++ [Record.relation r] := by simp
    have hSr : S r.id := by
      apply hS r hr mb hmb
      rcases (memberHit_iff e mb).mp hhit with h | h | ⟨hty, hg⟩
      · exact Or.inl h
      · exact Or.inr (Or.inl h)
      · exact Or.inr (Or.inr ⟨hty, hin _ hg⟩)
    apply hc.sound S
    · intro y hy
      rw [growing_bitset.get_set] at hy
      by_cases hyr : y = r.id
      · exact hyr ▸ hSr
      · rw [if_neg hyr] at hy; exact hin y hy
    · exact hSr
    · intro it hit h1
      have key : ∀ v, Record.relation v ∈ pre ++ [Record.relation r] →
          it ∈ cascadePairs v → S it.2 := by
        intro v hv hp
        obtain ⟨mb2, hmb2, hty, href, hid⟩ := (mem_memberPairs _ _ _).mp hp
        rw [hid]
        exact hS v hv mb2 hmb2 (Or.inr (Or.inr ⟨hty, href ▸ h1⟩))
      rcases (hm it).mp hit with h | h
      · obtain ⟨v, hv, hp⟩ := hps it h
        exact key v (List.mem_append_left _ hv) hp
      · exact key r hr h
  · rw [relationStep_of_not_hit r m e hany]; exact hin

theorem relation_extracts_ne_nil (info : SoftcutInfo) (r : Relation)
    (h : (relation info r).extracts ≠ []) : info.extracts ≠ [] := by
  intro h0
  apply h
  have hf := relation_forall₂ info r
  rw [h0] at hf
  exact List.forall₂_nil_left_iff.mp hf

theorem pairsSound_relation (pre : List Record) (s : SoftcutInfo) (r : Relation)
    (h : PairsSound pre s.cascading_relations_tracker) :
    PairsSound (pre ++ [Record.relation r]) (relation s r).cascading_relations_tracker := by
  intro it hit
  rcases (mem_relation_tracker s r it).mp hit with h1 | ⟨_, h1⟩
  · obtain ⟨v, hv, hp⟩ := h it h1
    exact ⟨v, List.mem_append_left _ hv, hp⟩
  · exact ⟨r, by simp, h1⟩

/-- The callbacks `node` and `way` leave the multimap and every
`relation_tracker` as they are. -/
theorem handle_of_not_relation (s : SoftcutInfo) (x : Record)
    (hx : ∀ r, x ≠ Record.relation r) :
    (handle s x).cascading_relations_tracker = s.cascading_relations_tracker ∧
    ((handle s x).extracts ≠ [] → s.extracts ≠ []) ∧
    ∀ e2 ∈ (handle s x).extracts, ∃ e ∈ s.extracts,
      e2.relation_tracker = e.relation_tracker := by
  cases x with
  | node n0 =>
    refine ⟨rfl, ?_, ?_⟩
    · simp [handle, node]
    · intro e2 he2
      obtain ⟨e, he, rfl⟩ := mem_node_extracts s n0 e2 he2
      refine ⟨e, he, ?_⟩
      split <;> rfl
  | way w =>
    refine ⟨rfl, ?_, ?_⟩
    · simp [handle, way]
    · intro e2 he2
      obtain ⟨e, he, rfl⟩ := mem_way_extracts s w e2 he2
      exact ⟨e, he, rfl⟩
  | relation r => exact absurd rfl (hx r)

theorem mem_relation_append_of_not_relation (pre : List Record) (x : Record)
    (hx : ∀ r, x ≠ Record.relation r) (v : Relation) :
    Record.relation v ∈ pre ++ [x] ↔ Record.relation v ∈ pre := by
  simp only [List.mem_append, List.mem_singleton]
  constructor
  · rintro (h | h)
    · exact h
    · exact absurd h.symm (hx v)
  · exact Or.inl

/-- On every input stream: the multimap holds exactly the pairs of the members
of type relation seen so far (when there is an extract at all), and every
`relation_tracker` is closed under them. -/
theorem run_cascade_invariant (input : List Record) (regions : List (Node → Bool)) :
    PairsSound input (run input (SoftcutInfo.new regions)).cascading_relations_tracker ∧
    ((run input (SoftcutInfo.new regions)).extracts ≠ [] →
      PairsComplete input (run input (SoftcutInfo.new regions)).cascading_relations_tracker) ∧
    ∀ e ∈ (run input (SoftcutInfo.new regions)).extracts,
      CascadeClosed (run input (SoftcutInfo.new regions)).cascading_relations_tracker
        e.relation_tracker := by
  apply run_invariant
    (fun pre s => PairsSound pre s.cascading_relations_tracker ∧
      (s.extracts ≠ [] → PairsComplete pre s.cascading_relations_tracker) ∧
      ∀ e ∈ s.extracts, CascadeClosed s.cascading_relations_tracker e.relation_tracker)
  · refine ⟨?_, ?_, ?_⟩
    · intro it hit; cases hit
    · intro _ v hv; cases hv
    · intro e _ it hit; cases hit
  · rintro pre s x ⟨hps, hpc, hcl⟩
    by_cases hx : ∀ r, x ≠ Record.relation r
    · obtain ⟨hcrt, hne, hrt⟩ := handle_of_not_relation s x hx
      refine ⟨?_, ?_, ?_⟩
      · intro it hit
        rw [hcrt] at hit
        obtain ⟨v, hv, hp⟩ := hps it hit
        exact ⟨v, List.mem_append_left _ hv, hp⟩
      · intro hne2 v hv it hit
        rw [hcrt]
        exact hpc (hne hne2) v ((mem_relation_append_of_not_relation pre x hx v).mp hv) it hit
      · intro e2 he2
        obtain ⟨e, he, hrte⟩ := hrt e2 he2
        rw [hcrt, hrte]
        exact hcl e he
    · push_neg at hx
      obtain ⟨r, rfl⟩ := hx
      refine ⟨pairsSound_relation pre s r hps, ?_, ?_⟩
      · intro hne2 v hv it hit
        have hne := relation_extracts_ne_nil s r hne2
        apply (mem_relation_tracker s r it).mpr
        simp only [List.mem_append, List.mem_singleton, Record.relation.injEq] at hv
        rcases hv with hv | rfl
        · exact Or.inl (hpc hne v hv it hit)
        · exact Or.inr ⟨hne, hit⟩
      · intro e2 he2
        obtain ⟨e, he, m2, hm2, rfl⟩ := mem_relation_extracts s r e2 he2
        have hc := relationStep_closed r s.cascading_relations_tracker m2 e hm2 (hcl e he)
        intro it hit h1
        apply hc it _ h1
        apply (hm2 it).mpr
        rcases (mem_relation_tracker s r it).mp hit with h | ⟨_, h⟩
        · exact Or.inl h
        · exact Or.inr h

/-- On every input stream, every `relation_tracker` holds, with a relation id,
the id of every relation version of the input that has it as a member. -/
theorem run_cascade_closed (input : List Record) (regions : List (Node → Bool)) :
    ∀ e ∈ (run input (SoftcutInfo.new regions)).extracts,
      ∀ v, Record.relation v ∈ input → ∀ mb ∈ v.members, mb.type = 'r' →
        e.relation_tracker.get mb.ref = true → e.relation_tracker.get v.id = true := by
  intro e he v hv mb hmb hty hget
  obtain ⟨_, hpc, hcl⟩ := run_cascade_invariant input regions
  have hne : (run input (SoftcutInfo.new regions)).extracts ≠ [] :=
    List.ne_nil_of_mem he
  have hp : (mb.ref, v.id) ∈ cascadePairs v :=
    (mem_memberPairs _ _ _).mpr ⟨mb, hmb, hty, rfl, rfl⟩
  exact hcl e he _ (hpc hne v hv _ hp) hget

/-! ## The three phases of a type-grouped input -/

theorem typeGrouped_split (input : List Record) (h : typeGrouped input) :
    ∃ ns ws rs, input = ns ++ ws ++ rs ∧ (∀ x ∈ ns, ∃ n, x = Record.node n) ∧
      (∀ x ∈ ws, ∃ w, x = Record.way w) ∧ (∀ x ∈ rs, ∃ r, x = Record.relation r) := by
  refine ⟨(nodesOf input).map Record.node, (waysOf input).map Record.way,
    (relationsOf input).map Record.relation, h, ?_, ?_, ?_⟩
  · intro x hx
    obtain ⟨n, _, rfl⟩ := List.mem_map.mp hx
    exact ⟨n, rfl⟩
  · intro x hx
    obtain ⟨w, _, rfl⟩ := List.mem_map.mp hx
    exact ⟨w, rfl⟩
  · intro x hx
    obtain ⟨r, _, rfl⟩ := List.mem_map.mp hx
    exact ⟨r, rfl⟩

/-- Before the first way, `way_tracker` and `extra_node_tracker` are empty. -/
theorem run_of_no_way (regions : List (Node → Bool)) (input : List Record)
    (hin : ∀ x ∈ input, ∀ w, x ≠ Record.way w) :
    ∀ e ∈ (run input (SoftcutInfo.new regions)).extracts,
      e.way_tracker = growing_bitset.empty ∧ e.extra_node_tracker = growing_bitset.empty := by
  apply run_invariant_on (fun x => ∀ w, x ≠ Record.way w)
    (fun _ s => ∀ e ∈ s.extracts,
      e.way_tracker = growing_bitset.empty ∧ e.extra_node_tracker = growing_bitset.empty)
    _ _ _ input hin
  · intro e he
    simp only [SoftcutInfo.new, List.mem_map] at he
    obtain ⟨c, _, rfl⟩ := he
    exact ⟨rfl, rfl⟩
  · intro pre s x hx ih e2 he2
    cases x with
    | node n0 =>
      obtain ⟨e, he, rfl⟩ := mem_node_extracts s n0 e2 he2
      have := ih e he
      split <;> exact this
    | way w => exact absurd rfl (hx w)
    | relation r =>
      obtain ⟨e, he, m2, _, rfl⟩ := mem_relation_extracts s r e2 he2
      exact ih e he

/-- Before the first relation, the multimap and every `relation_tracker` are
empty. -/
theorem run_of_no_relation (regions : List (Node → Bool)) (input : List Record)
    (hin : ∀ x ∈ input, ∀ r, x ≠ Record.relation r) :
    (run input (SoftcutInfo.new regions)).cascading_relations_tracker = [] ∧
    ∀ e ∈ (run input (SoftcutInfo.new regions)).extracts,
      e.relation_tracker = growing_bitset.empty := by
  apply run_invariant_on (fun x => ∀ r, x ≠ Record.relation r)
    (fun _ s => s.cascading_relations_tracker = [] ∧
      ∀ e ∈ s.extracts, e.relation_tracker = growing_bitset.empty)
    _ _ _ input hin
  · refine ⟨rfl, ?_⟩
    intro e he
    simp only [SoftcutInfo.new, List.mem_map] at he
    obtain ⟨c, _, rfl⟩ := he
    rfl
  · rintro pre s x hx ⟨ih1, ih2⟩
    obtain ⟨hcrt, _, hrt⟩ := handle_of_not_relation s x hx
    refine ⟨hcrt.trans ih1, ?_⟩
    intro e2 he2
    obtain ⟨e, he, hrte⟩ := hrt e2 he2
    rw [hrte]
    exact ih2 e he

/-- The way phase: over way versions only, starting with empty `way_tracker`
and `extra_node_tracker`, the trackers record the ways seen against the
`node_tracker`, which does not change. -/
theorem run_ways (s0 : SoftcutInfo) (ws : List Record)
    (hws : ∀ x ∈ ws, ∃ w, x = Record.way w)
    (h0 : ∀ e ∈ s0.extracts, WaysRecorded [] e) :
    ∀ e ∈ (run ws s0).extracts, WaysRecorded ws e := by
  apply run_invariant_on (fun x => ∃ w, x = Record.way w)
    (fun pre s => ∀ e ∈ s.extracts, WaysRecorded pre e) _ h0 _ ws hws
  rintro pre s x ⟨w, rfl⟩ ih e2 he2
  obtain ⟨e, he, rfl⟩ := mem_way_extracts s w e2 he2
  exact waysRecorded_way_extract pre w e (ih e he)

theorem waysRecorded_of_empty (e : SoftcutExtractInfo)
    (h1 : e.way_tracker = growing_bitset.empty)
    (h2 : e.extra_node_tracker = growing_bitset.empty) : WaysRecorded [] e := by
  constructor
  · intro w; simp [h1, growing_bitset.get_empty]
  · intro n; simp [h2, growing_bitset.get_empty]

theorem waysRecorded_congr (ws ws2 : List Record) (e : SoftcutExtractInfo)
    (h : ∀ v, Record.way v ∈ ws ↔ Record.way v ∈ ws2) (hw : WaysRecorded ws e) :
    WaysRecorded ws2 e := by
  constructor
  · intro w
    rw [hw.way_iff]
    exact exists_congr fun v => by rw [h v]
  · intro n
    rw [hw.extra_iff]
    exact exists_congr fun v => by rw [h v]

/-- The relation phase: over relation versions only, starting with an empty
multimap and empty `relation_tracker`s, every relation version with a tracked
node or way member is recorded, nothing is recorded that the selection rule
does not force, and the other trackers do not change. -/
theorem run_relations (s0 : SoftcutInfo) (rs : List Record)
    (Q : SoftcutExtractInfo → Prop)
    (hQ : ∀ r m e, Q e → Q (relationStep r m e))
    (hrs : ∀ x ∈ rs, ∃ r, x = Record.relation r)
    (hcrt : s0.cascading_relations_tracker = [])
    (h0 : ∀ e ∈ s0.extracts, e.relation_tracker = growing_bitset.empty ∧ Q e) :
    ∀ e ∈ (run rs s0).extracts, DirectHits rs e ∧ Justified rs e ∧ Q e := by
  have key := run_invariant_on (fun x => ∃ r, x = Record.relation r)
    (fun pre s => PairsSound pre s.cascading_relations_tracker ∧
      ∀ e ∈ s.extracts, DirectHits pre e ∧ Justified pre e ∧ Q e) s0 ?_ ?_ rs hrs
  · exact key.2
  · refine ⟨?_, ?_⟩
    · intro it hit; rw [hcrt] at hit; cases hit
    · intro e he
      obtain ⟨hrt, hq⟩ := h0 e he
      refine ⟨?_, ?_, hq⟩
      · intro v hv; cases hv
      · intro S _ x hx
        rw [hrt, growing_bitset.get_empty] at hx
        cases hx
  · rintro pre s x ⟨r, rfl⟩ ⟨hps, ih⟩
    refine ⟨pairsSound_relation pre s r hps, ?_⟩
    intro e2 he2
    obtain ⟨e, he, m2, hm2, rfl⟩ := mem_relation_extracts s r e2 he2
    obtain ⟨hd, hj, hq⟩ := ih e he
    refine ⟨?_, ?_, hQ r m2 e hq⟩
    · intro v hv mb hmb hcase
      simp only [List.mem_append, List.mem_singleton, Record.relation.injEq] at hv
      rcases hv with hv | rfl
      · exact relationStep_mono r m2 e _ (hd v hv mb hmb hcase)
      · apply relationStep_records v m2 e mb hmb
        apply (memberHit_iff e mb).mpr
        rcases hcase with h | h
        · exact Or.inl h
        · exact Or.inr (Or.inl h)
    · intro S hS
      have hSe : RuleClosed (pre ++ [Record.relation r]) e S := hS
      apply relationStep_justified r pre s.cascading_relations_tracker m2 e S hm2 hps hSe
      apply hj S
      intro v hv mb hmb hcase
      exact hSe v (List.mem_append_left _ hv) mb hmb hcase

/-- Pass one over a type-grouped input, from the fresh state: the way trackers
record the ways of the input against the final `node_tracker`, and
`relation_tracker` obeys the selection rule and lies in every set that does. -/
theorem run_typeGrouped (input : List Record) (regions : List (Node → Bool))
    (h : typeGrouped input) :
    ∀ e ∈ (run input (SoftcutInfo.new regions)).extracts,
      WaysRecorded input e ∧
      RuleClosed input e (fun x => e.relation_tracker.get x = true) ∧
      Justified input e := by
  obtain ⟨ns, ws, rs, hsplit, hns, hws, hrs⟩ := typeGrouped_split input h
  intro e he
  -- the state before the first way and before the first relation
  have h1 : ∀ e ∈ (run ns (SoftcutInfo.new regions)).extracts, WaysRecorded [] e := by
    intro e1 he1
    obtain ⟨ha, hb⟩ := run_of_no_way regions ns
      (fun x hx w hw => by obtain ⟨n, hn⟩ := hns x hx; rw [hn] at hw; cases hw) e1 he1
    exact waysRecorded_of_empty e1 ha hb
  have h2 := run_ways (run ns (SoftcutInfo.new regions)) ws hws h1
  rw [← run_append] at h2
  have h2r := run_of_no_relation regions (ns ++ ws) (by
    intro x hx r hr
    rcases List.mem_append.mp hx with hx | hx
    · obtain ⟨n, hn⟩ := hns x hx; rw [hn] at hr; cases hr
    · obtain ⟨w, hw⟩ := hws x hx; rw [hw] at hr; cases hr)
  have h3 := run_relations (run (ns ++ ws) (SoftcutInfo.new regions)) rs
    (fun e => WaysRecorded ws e) (fun _ _ _ hq => ⟨hq.way_iff, hq.extra_iff⟩) hrs h2r.1
    (fun e1 he1 => ⟨h2r.2 e1 he1, h2 e1 he1⟩)
  rw [← run_append, ← hsplit] at h3
  obtain ⟨hd, hj, hw⟩ := h3 e he
  have hway : ∀ v, Record.way v ∈ ws ↔ Record.way v ∈ input := by
    intro v
    rw [hsplit]
    simp only [List.mem_append]
    constructor
    · intro hv; exact Or.inl (Or.inr hv)
    · rintro ((hv | hv) | hv)
      · obtain ⟨n, hn⟩ := hns _ hv; cases hn
      · exact hv
      · obtain ⟨r, hr⟩ := hrs _ hv; cases hr
  have hrel : ∀ v, Record.relation v ∈ input ↔ Record.relation v ∈ rs := by
    intro v
    rw [hsplit]
    simp only [List.mem_append]
    constructor
    · rintro ((hv | hv) | hv)
      · obtain ⟨n, hn⟩ := hns _ hv; cases hn
      · obtain ⟨w, hw⟩ := hws _ hv; cases hw
      · exact hv
    · intro hv; exact Or.inr hv
  refine ⟨waysRecorded_congr ws input e hway hw, ?_, ?_⟩
  · intro v hv mb hmb hcase
    rcases hcase with hc | hc | ⟨hty, hg⟩
    · exact hd v ((hrel v).mp hv) mb hmb (Or.inl hc)
    · exact hd v ((hrel v).mp hv) mb hmb (Or.inr hc)
    · exact run_cascade_closed input regions e he v hv mb hmb hty hg
  · intro S hS
    apply hj S
    intro v hv mb hmb hcase
    exact hS v ((hrel v).mpr hv) mb hmb hcase

/-! ## A region without a hit -/

/-- An extract with an empty `node_tracker` is left alone by the way callback. -/
theorem way_extract_of_empty (w : Way) (e : SoftcutExtractInfo)
    (h : e.node_tracker = growing_bitset.empty) : way_extract w e = e := by
  have hany : w.nodes.any e.node_tracker.get = false := by
    rw [h]
    apply Bool.eq_false_iff.mpr
    intro hc
    obtain ⟨ref, _, href⟩ := List.any_eq_true.mp hc
    exact absurd href (by simp [growing_bitset.get_empty])
  cases e
  simp_all [way_extract, way_scan_eq]

/-- An extract with empty node, way and relation trackers is left alone by the
relation callback. -/
theorem relationStep_of_empty (r : Relation) (m : CascadeIndex) (e : SoftcutExtractInfo)
    (h1 : e.node_tracker = growing_bitset.empty) (h2 : e.way_tracker = growing_bitset.empty)
    (h3 : e.relation_tracker = growing_bitset.empty) : relationStep r m e = e := by
  apply relationStep_of_not_hit
  intro hc
  obtain ⟨mb, _, hmb⟩ := List.any_eq_true.mp hc
  rw [memberHit_iff, h1, h2, h3] at hmb
  simp [growing_bitset.get_empty] at hmb

/-- On every input stream, an extract whose region rejects every node version
seen so far has four empty trackers. -/
theorem run_of_no_hit (input : List Record) (regions : List (Node → Bool)) :
    ∀ e ∈ (run input (SoftcutInfo.new regions)).extracts,
      (∀ v, Record.node v ∈ input → e.contains v = false) →
      e.node_tracker = growing_bitset.empty ∧ e.extra_node_tracker = growing_bitset.empty ∧
      e.way_tracker = growing_bitset.empty ∧ e.relation_tracker = growing_bitset.empty := by
  apply run_invariant
    (fun pre s => ∀ e ∈ s.extracts, (∀ v, Record.node v ∈ pre → e.contains v = false) →
      e.node_tracker = growing_bitset.empty ∧ e.extra_node_tracker = growing_bitset.empty ∧
      e.way_tracker = growing_bitset.empty ∧ e.relation_tracker = growing_bitset.empty)
  · intro e he _
    simp only [SoftcutInfo.new, List.mem_map] at he
    obtain ⟨c, _, rfl⟩ := he
    exact ⟨rfl, rfl, rfl, rfl⟩
  · intro pre s x ih e2 he2 hrej
    cases x with
    | node n0 =>
      obtain ⟨e, he, rfl⟩ := mem_node_extracts s n0 e2 he2
      have hc : e.contains n0 = false := by
        have := hrej n0 (by simp)
        split at this <;> exact this
      simp only [hc, Bool.false_eq_true, if_false] at hrej ⊢
      exact ih e he (fun v hv => hrej v (List.mem_append_left _ hv))
    | way w =>
      obtain ⟨e, he, rfl⟩ := mem_way_extracts s w e2 he2
      have hi := ih e he (fun v hv => hrej v (List.mem_append_left _ hv))
      rw [way_extract_of_empty w e hi.1]
      exact hi
    | relation r =>
      obtain ⟨e, he, m2, _, rfl⟩ := mem_relation_extracts s r e2 he2
      have hi := ih e he (fun v hv => hrej v (List.mem_append_left _ hv))
      rw [relationStep_of_empty r m2 e hi.1 hi.2.2.1 hi.2.2.2]
      exact hi

end SoftcutPassOne

end Softcut

/-! ## Pass two, extract by extract -/

namespace Softcut

namespace SoftcutPassTwo

theorem handle_eq (info : SoftcutInfo) (x : Record) :
    handle info x
      = { info with
          extracts := info.extracts.map fun e =>
            if membership e x then { e with writer := e.writer ++ [x] } else e } := by
  cases x <;> rfl

/-- Pass two appends to the writer of every extract the selected records of the
input, in input order, and changes nothing else. -/
theorem run_eq :
    ∀ (input : List Record) (info : SoftcutInfo),
      run input info = { info with extracts := info.extracts.map (emitAll input) } := by
  intro input
  induction input with
  | nil =>
    intro info
    have hid : emitAll [] = id := by
      funext e
      cases e
      simp [emitAll]
    rw [hid, List.map_id]
    rfl
  | cons x rest ih =>
    intro info
    have hrun : run (x :: rest) info = run rest (handle info x) := rfl
    rw [hrun, ih, handle_eq]
    simp only [List.map_map]
    congr 1
    apply List.map_congr_left
    intro e _
    simp only [Function.comp]
    by_cases hm : membership e x = true
    · simp only [hm, if_true, emitAll, List.filter_cons, List.append_assoc,
        List.singleton_append]
      rfl
    · simp only [hm, Bool.false_eq_true, if_false, emitAll, List.filter_cons]

end SoftcutPassTwo

/-! ## Both passes -/

theorem mem_nodesOf (input : List Record) (n : Node) :
    n ∈ nodesOf input ↔ Record.node n ∈ input := by
  induction input with
  | nil => simp [nodesOf]
  | cons x rest ih => cases x <;> simp [nodesOf, ih]

theorem mem_waysOf (input : List Record) (w : Way) :
    w ∈ waysOf input ↔ Record.way w ∈ input := by
  induction input with
  | nil => simp [waysOf]
  | cons x rest ih => cases x <;> simp [waysOf, ih]

theorem mem_relationsOf (input : List Record) (r : Relation) :
    r ∈ relationsOf input ↔ Record.relation r ∈ input := by
  induction input with
  | nil => simp [relationsOf]
  | cons x rest ih => cases x <;> simp [relationsOf, ih]

/-- The versions of one object are selected together. -/
theorem membership_of_sameObject (e : SoftcutExtractInfo) (x y : Record)
    (h : sameObject x y) : membership e y = membership e x := by
  cases x <;> cases y <;> simp only [sameObject] at h <;> simp [membership, h]

/-- The extracts after both passes: those of pass one, each with the selected
records of the input in its writer. -/
theorem passes_extracts (input : List Record) (regions : List (Node → Bool)) :
    (SoftcutPassTwo.run input (SoftcutPassOne.run input (SoftcutInfo.new regions))).extracts
      = (SoftcutPassOne.run input (SoftcutInfo.new regions)).extracts.map (emitAll input) := by
  rw [SoftcutPassTwo.run_eq]

theorem emitAll_writer_of_nil (input : List Record) (e : SoftcutExtractInfo)
    (h : e.writer = []) : (emitAll input e).writer = input.filter (membership e) := by
  simp [emitAll, h]

/-- After both passes the extracts are the regions, in order. -/
theorem passes_contains (input : List Record) (regions : List (Node → Bool)) :
    (SoftcutPassTwo.run input (SoftcutPassOne.run input
      (SoftcutInfo.new regions))).extracts.map (fun e => e.contains) = regions := by
  rw [passes_extracts, List.map_map]
  exact SoftcutPassOne.run_new_contains input regions

/-- Every extract after both passes is an extract of pass one with the selected
records of the input, and nothing else, in its writer. -/
theorem mem_passes_extracts (input : List Record) (regions : List (Node → Bool))
    (e2 : SoftcutExtractInfo)
    (h : e2 ∈ (SoftcutPassTwo.run input (SoftcutPassOne.run input
      (SoftcutInfo.new regions))).extracts) :
    ∃ e1 ∈ (SoftcutPassOne.run input (SoftcutInfo.new regions)).extracts,
      e2.contains = e1.contains ∧ e2.writer = input.filter (membership e1) := by
  rw [passes_extracts] at h
  obtain ⟨e1, he1, rfl⟩ := List.mem_map.mp h
  exact ⟨e1, he1, rfl,
    emitAll_writer_of_nil input e1 (SoftcutPassOne.run_new_writer input regions e1 he1)⟩

/-- When every node and way of the input is tracked and `relation_tracker` obeys
the selection rule, every grounded relation id is in `relation_tracker`. -/
theorem relation_tracker_of_grounded (input : List Record) (e : SoftcutExtractInfo)
    (hn : ∀ n, Record.node n ∈ input → e.node_tracker.get n.id = true)
    (hw : ∀ w, Record.way w ∈ input → e.way_tracker.get w.id = true)
    (hcl : RuleClosed input e (fun x => e.relation_tracker.get x = true)) :
    ∀ x, Grounded input x → e.relation_tracker.get x = true := by
  intro x hx
  induction hx with
  | node v mb n hv hmb hty hnin hid =>
    exact hcl v hv mb hmb (Or.inl ⟨hty, hid ▸ hn n hnin⟩)
  | way v mb w hv hmb hty hwin hid =>
    exact hcl v hv mb hmb (Or.inr (Or.inl ⟨hty, hid ▸ hw w hwin⟩))
  | relation v mb hv hmb hty _ ih =>
    exact hcl v hv mb hmb (Or.inr (Or.inr ⟨hty, ih⟩))

/-! ## The claims -/

/-- C1. With the trackers held fixed, pass two sends to the writer of every
region exactly the input sequence filtered by the membership predicate of that
region: the writer of every extract is extended by `input.filter (membership e)`,
so the records are unaltered, in input order, and each input record is sent at
most once (also a node whose id is in both node trackers); trackers and multimap
stay as they are. -/
theorem passTwo_sends_filtered_input (input : List Record) (info : SoftcutInfo) :
    SoftcutPassTwo.run input info
      = { extracts := info.extracts.map fun e =>
            { e with writer := e.writer ++ input.filter (membership e) }
          cascading_relations_tracker := info.cascading_relations_tracker } :=
  SoftcutPassTwo.run_eq input info

/-- C2. After pass one over any input stream, for every region (with oracle `c`)
and every node id `n`: `n` is in the `node_tracker` of the region if and only if
some node version with id `n` in the input satisfies the oracle. -/
theorem passOne_node_tracker_iff (input : List Record) (regions : List (Node → Bool)) :
    List.Forall₂
      (fun c e => ∀ n, e.node_tracker.get n = true ↔
        ∃ v, Record.node v ∈ input ∧ v.id = n ∧ c v = true)
      regions (SoftcutPassOne.run input (SoftcutInfo.new regions)).extracts :=
  forall₂_of_map_eq (fun e => e.contains) _ regions _
    (SoftcutPassOne.run_new_contains input regions)
    (SoftcutPassOne.run_node_tracker input regions)

/-- C6. After pass one over any input stream, the `relation_tracker` of every
region is closed under cascade: whenever `r` is in it and some relation version
with id `r2` of the input has a member of type relation with ref `r`, then `r2`
is in it too, wherever parent and child stand in the stream. -/
theorem passOne_relation_tracker_cascade_closed (input : List Record)
    (regions : List (Node → Bool)) :
    List.Forall₂
      (fun _ e => ∀ r r2, e.relation_tracker.get r = true →
        (∃ v, Record.relation v ∈ input ∧ v.id = r2 ∧
          ∃ mb ∈ v.members, mb.type = 'r' ∧ mb.ref = r) →
        e.relation_tracker.get r2 = true)
      regions (SoftcutPassOne.run input (SoftcutInfo.new regions)).extracts := by
  apply forall₂_of_map_eq (fun e => e.contains) _ regions _
    (SoftcutPassOne.run_new_contains input regions)
  rintro e he r r2 hr ⟨v, hv, rfl, mb, hmb, hty, rfl⟩
  exact SoftcutPassOne.run_cascade_closed input regions e he v hv mb hmb hty hr

/-- C3. After pass one over a type-grouped input, for every region and every way
id `w`: `w` is in the `way_tracker` of the region if and only if some way version
with id `w` of the input references at least one node id that is in the
`node_tracker` of the region. -/
theorem passOne_way_tracker_iff (input : List Record) (regions : List (Node → Bool))
    (h : typeGrouped input) :
    List.Forall₂
      (fun _ e => ∀ w, e.way_tracker.get w = true ↔
        ∃ v, Record.way v ∈ input ∧ v.id = w ∧
          ∃ ref ∈ v.nodes, e.node_tracker.get ref = true)
      regions (SoftcutPassOne.run input (SoftcutInfo.new regions)).extracts := by
  apply forall₂_of_map_eq (fun e => e.contains) _ regions _
    (SoftcutPassOne.run_new_contains input regions)
  intro e he
  exact (SoftcutPassOne.run_typeGrouped input regions h e he).1.way_iff

/-- C7. After pass one over a type-grouped input, the `relation_tracker` of every
region is the least set of relation ids that obeys the selection rule (a member
of some version is a node in `node_tracker`, a way in `way_tracker`, or a
relation in the set): it obeys the rule, and it lies in every set that does. -/
theorem passOne_relation_tracker_least (input : List Record)
    (regions : List (Node → Bool)) (h : typeGrouped input) :
    List.Forall₂
      (fun _ e =>
        RuleClosed input e (fun r => e.relation_tracker.get r = true) ∧
        ∀ S : osm_object_id_t → Prop, RuleClosed input e S →
          ∀ r, e.relation_tracker.get r = true → S r)
      regions (SoftcutPassOne.run input (SoftcutInfo.new regions)).extracts := by
  apply forall₂_of_map_eq (fun e => e.contains) _ regions _
    (SoftcutPassOne.run_new_contains input regions)
  intro e he
  exact (SoftcutPassOne.run_typeGrouped input regions h e he).2

/-- Witness of C3 on scenario A with the unit box. -/
theorem passOne_way_tracker_iff_witness :
    typeGrouped scenarioA ∧
    List.Forall₂
      (fun _ e => ∀ w, e.way_tracker.get w = true ↔
        ∃ v, Record.way v ∈ scenarioA ∧ v.id = w ∧
          ∃ ref ∈ v.nodes, e.node_tracker.get ref = true)
      [unitBox] (SoftcutPassOne.run scenarioA (SoftcutInfo.new [unitBox])).extracts :=
  ⟨by decide, passOne_way_tracker_iff scenarioA [unitBox] (by decide)⟩

/-- Witness of C7 on scenario C with the unit box. -/
theorem passOne_relation_tracker_least_witness :
    typeGrouped scenarioC ∧
    List.Forall₂
      (fun _ e =>
        RuleClosed scenarioC e (fun r => e.relation_tracker.get r = true) ∧
        ∀ S : osm_object_id_t → Prop, RuleClosed scenarioC e S →
          ∀ r, e.relation_tracker.get r = true → S r)
      [unitBox] (SoftcutPassOne.run scenarioC (SoftcutInfo.new [unitBox])).extracts :=
  ⟨by decide, passOne_relation_tracker_least scenarioC [unitBox] (by decide)⟩

/-- C4, at the input `movedWay` with the unit box: way 100 is in `way_tracker`
and both its versions are sent to the writer, version 2 references node 2, and
node 2 is neither in `node_tracker` nor in `extra_node_tracker`, so that no
version of node 2 is sent: the way is not reference-complete across its
versions. -/
theorem moved_way_is_not_reference_complete :
    typeGrouped movedWay ∧
    (SoftcutPassOne.run movedWay (SoftcutInfo.new [unitBox])).extracts.map
      (fun e => (e.way_tracker.get 100, e.node_tracker.get 2, e.extra_node_tracker.get 2))
      = [(true, false, false)] ∧
    (SoftcutPassTwo.run movedWay
      (SoftcutPassOne.run movedWay (SoftcutInfo.new [unitBox]))).extracts.map
      (fun e => e.writer)
      = [[.node ⟨1, 1, 0, 0⟩, .way ⟨100, 1, [1]⟩, .way ⟨100, 2, [2]⟩]] := by
  decide

/-- C5. After pass one over a type-grouped input, for every region and every way
version of the input that references at least one node id in the `node_tracker`
of the region: every node id the version references is in the
`extra_node_tracker` of the region, and pass two sends every node version of the
input with such an id to the writer of the region. The extracts after pass one
and after pass two are paired in order. -/
theorem hit_way_version_is_reference_complete (input : List Record)
    (regions : List (Node → Bool)) (h : typeGrouped input) :
    List.Forall₂
      (fun e1 e2 => ∀ v, Record.way v ∈ input →
        (∃ ref ∈ v.nodes, e1.node_tracker.get ref = true) →
        ∀ ref ∈ v.nodes, e1.extra_node_tracker.get ref = true ∧
          ∀ n, Record.node n ∈ input → n.id = ref → Record.node n ∈ e2.writer)
      (SoftcutPassOne.run input (SoftcutInfo.new regions)).extracts
      (SoftcutPassTwo.run input
        (SoftcutPassOne.run input (SoftcutInfo.new regions))).extracts := by
  rw [passes_extracts, List.forall₂_map_right_iff, List.forall₂_same]
  intro e1 he1 v hv hhit ref href
  have hextra : e1.extra_node_tracker.get ref = true :=
    ((SoftcutPassOne.run_typeGrouped input regions h e1 he1).1.extra_iff ref).mpr
      ⟨v, hv, href, hhit⟩
  refine ⟨hextra, ?_⟩
  intro n hn hid
  rw [emitAll_writer_of_nil input e1 (SoftcutPassOne.run_new_writer input regions e1 he1)]
  apply List.mem_filter.mpr
  refine ⟨hn, ?_⟩
  simp [membership, hid, hextra]

/-- Witness of C5 on scenario A with the unit box. -/
theorem hit_way_version_is_reference_complete_witness :
    typeGrouped scenarioA ∧
    List.Forall₂
      (fun e1 e2 => ∀ v, Record.way v ∈ scenarioA →
        (∃ ref ∈ v.nodes, e1.node_tracker.get ref = true) →
        ∀ ref ∈ v.nodes, e1.extra_node_tracker.get ref = true ∧
          ∀ n, Record.node n ∈ scenarioA → n.id = ref → Record.node n ∈ e2.writer)
      (SoftcutPassOne.run scenarioA (SoftcutInfo.new [unitBox])).extracts
      (SoftcutPassTwo.run scenarioA
        (SoftcutPassOne.run scenarioA (SoftcutInfo.new [unitBox]))).extracts :=
  ⟨by decide, hit_way_version_is_reference_complete scenarioA [unitBox] (by decide)⟩

/-- C8 as stated fails: on the type-grouped input `emptyVersions`, with the one
region that accepts all coordinates, only the node is sent; the way version
without node refs and the relation version without members are not. -/
theorem roundTrip_fails_on_empty_versions :
    typeGrouped emptyVersions ∧
    (SoftcutPassTwo.run emptyVersions
      (SoftcutPassOne.run emptyVersions (SoftcutInfo.new [everywhere]))).extracts.map
      (fun e => e.writer) = [[.node ⟨1, 1, 0, 0⟩]] ∧
    (SoftcutPassTwo.run emptyVersions
      (SoftcutPassOne.run emptyVersions (SoftcutInfo.new [everywhere]))).extracts.map
      (fun e => e.writer) ≠ [emptyVersions] := by
  decide

/-- For a type-grouped input and the single region that accepts all coordinates,
the two passes send exactly the input records when every way of the input has a
version that references the id of a node of the input and every relation id of
the input is grounded. -/
theorem roundTrip_of_grounded (input : List Record) (h : typeGrouped input)
    (hways : ∀ w ∈ waysOf input, ∃ v ∈ waysOf input, v.id = w.id ∧
      ∃ ref ∈ v.nodes, ∃ n ∈ nodesOf input, n.id = ref)
    (hrels : ∀ r ∈ relationsOf input, Grounded input r.id) :
    (SoftcutPassTwo.run input
      (SoftcutPassOne.run input (SoftcutInfo.new [everywhere]))).extracts.map
      (fun e => e.writer) = [input] := by
  have hc := SoftcutPassOne.run_new_contains input [everywhere]
  rw [passes_extracts, List.map_map]
  cases hl : (SoftcutPassOne.run input (SoftcutInfo.new [everywhere])).extracts with
  | nil => rw [hl] at hc; cases hc
  | cons e1 rest =>
    rw [hl] at hc
    simp only [List.map_cons, List.cons.injEq, List.map_eq_nil_iff] at hc
    obtain ⟨hce, hrest⟩ := hc
    subst hrest
    have he1 : e1 ∈ (SoftcutPassOne.run input (SoftcutInfo.new [everywhere])).extracts := by
      rw [hl]; exact List.mem_cons_self _ _
    have hnode : ∀ n, Record.node n ∈ input → e1.node_tracker.get n.id = true := by
      intro n hn
      apply (SoftcutPassOne.run_node_tracker input [everywhere] e1 he1 n.id).mpr
      exact ⟨n, hn, rfl, by rw [hce]; rfl⟩
    obtain ⟨hwr, hcl, _⟩ := SoftcutPassOne.run_typeGrouped input [everywhere] h e1 he1
    have hway : ∀ w, Record.way w ∈ input → e1.way_tracker.get w.id = true := by
      intro w hw
      obtain ⟨v, hv, hid, ref, href, n, hn, hnid⟩ := hways w ((mem_waysOf input w).mpr hw)
      apply (hwr.way_iff w.id).mpr
      refine ⟨v, (mem_waysOf input v).mp hv, hid, ref, href, ?_⟩
      rw [← hnid]
      exact hnode n ((mem_nodesOf input n).mp hn)
    have hall : ∀ x ∈ input, membership e1 x = true := by
      intro x hx
      cases x with
      | node n => simp [membership, hnode n hx]
      | way w => exact hway w hx
      | relation r =>
        exact relation_tracker_of_grounded input e1 hnode hway hcl r.id
          (hrels r ((mem_relationsOf input r).mpr hx))
    simp only [List.map_cons, List.map_nil, Function.comp,
      emitAll_writer_of_nil input e1 (SoftcutPassOne.run_new_writer input _ e1 he1)]
    rw [List.filter_eq_self.mpr hall]

/-- C9. Selection is id-level, on every input stream and for every region (with
oracle `c`): if the two passes send some version of an object to the writer of
the region, they send every input version of the same type and id; and if any
version of a node lies inside the region, every version of that node in the
input is sent. -/
theorem selection_is_id_level (input : List Record) (regions : List (Node → Bool)) :
    List.Forall₂
      (fun c e2 =>
        (∀ x ∈ e2.writer, ∀ y ∈ input, sameObject x y → y ∈ e2.writer) ∧
        (∀ v, Record.node v ∈ input → c v = true →
          ∀ v2, Record.node v2 ∈ input → v2.id = v.id → Record.node v2 ∈ e2.writer))
      regions
      (SoftcutPassTwo.run input
        (SoftcutPassOne.run input (SoftcutInfo.new regions))).extracts := by
  apply forall₂_of_map_eq (fun e => e.contains) _ regions _ (passes_contains input regions)
  intro e2 he2
  obtain ⟨e1, he1, hc, hw⟩ := mem_passes_extracts input regions e2 he2
  rw [hw]
  constructor
  · intro x hx y hy hsame
    obtain ⟨_, hmx⟩ := List.mem_filter.mp hx
    apply List.mem_filter.mpr
    exact ⟨hy, by rw [membership_of_sameObject e1 x y hsame]; exact hmx⟩
  · intro v hv hcv v2 hv2 hid
    have hnt : e1.node_tracker.get v2.id = true := by
      apply (SoftcutPassOne.run_node_tracker input regions e1 he1 v2.id).mpr
      exact ⟨v, hv, hid.symm, by rw [← hc]; exact hcv⟩
    apply List.mem_filter.mpr
    exact ⟨hv2, by simp [membership, hnt]⟩

/-- C10. No hit, no output, on every input stream: for every region (with oracle
`c`) that rejects every node version of the input, all four trackers are empty
after pass one, and the writer of the region is empty after both passes. -/
theorem no_hit_no_output (input : List Record) (regions : List (Node → Bool)) :
    List.Forall₂
      (fun c e1 => (∀ v, Record.node v ∈ input → c v = false) →
        e1.node_tracker = growing_bitset.empty ∧
        e1.extra_node_tracker = growing_bitset.empty ∧
        e1.way_tracker = growing_bitset.empty ∧
        e1.relation_tracker = growing_bitset.empty)
      regions (SoftcutPassOne.run input (SoftcutInfo.new regions)).extracts ∧
    List.Forall₂
      (fun c e2 => (∀ v, Record.node v ∈ input → c v = false) → e2.writer = [])
      regions
      (SoftcutPassTwo.run input
        (SoftcutPassOne.run input (SoftcutInfo.new regions))).extracts := by
  constructor
  · apply forall₂_of_map_eq (fun e => e.contains) _ regions _
      (SoftcutPassOne.run_new_contains input regions)
    exact SoftcutPassOne.run_of_no_hit input regions
  · apply forall₂_of_map_eq (fun e => e.contains) _ regions _ (passes_contains input regions)
    intro e2 he2 hrej
    obtain ⟨e1, he1, hc, hw⟩ := mem_passes_extracts input regions e2 he2
    obtain ⟨h1, h2, h3, h4⟩ :=
      SoftcutPassOne.run_of_no_hit input regions e1 he1 (fun v hv => by
        rw [← hc]; exact hrej v hv)
    rw [hw]
    apply List.filter_eq_nil_iff.mpr
    intro x _
    cases x <;> simp [membership, h1, h2, h3, h4, growing_bitset.get_empty]

/-! ## The cascade as a search through untracked ids -/

theorem growing_bitset.ext_get (a b : growing_bitset) (h : ∀ x, a.get x = b.get x) :
    a = b := by
  cases a
  cases b
  simp only [growing_bitset.mk.injEq]
  funext x
  exact h x

theorem white_untracked (m : CascadeIndex) (t : growing_bitset) (id x : osm_object_id_t)
    (h : White m t id x) : t.get x = false := by
  cases h with
  | step _ _ h0 => exact h0
  | trans _ _ _ _ h0 => exact h0

theorem white_congr (m m2 : CascadeIndex) (t : growing_bitset) (id x : osm_object_id_t)
    (hm : ∀ it, it ∈ m ↔ it ∈ m2) (h : White m t id x) : White m2 t id x := by
  induction h with
  | step p hp h0 => exact White.step p ((hm _).mp hp) h0
  | trans y p _ hp h0 ih => exact White.trans y p ih ((hm _).mp hp) h0

namespace SoftcutPassOne

/-- The loop of the cascade only follows pairs that start at `id` or at an id
that was not tracked when the cascade started (with tracker `t0`). -/
theorem cascade_loop_white (m : CascadeIndex)
    (F : growing_bitset → osm_object_id_t → Option growing_bitset)
    (hmonoF : ∀ t id t2, F t id = some t2 → ∀ x, t.get x = true → t2.get x = true)
    (hF : ∀ t id t2, F t id = some t2 →
      ∀ S : osm_object_id_t → Prop, (∀ x, t.get x = true → S x) →
        (∀ it ∈ m, (it.1 = id ∨ (S it.1 ∧ t.get it.1 = false)) → S it.2) →
        ∀ x, t2.get x = true → S x)
    (id : osm_object_id_t) (t0 : growing_bitset) (S : osm_object_id_t → Prop)
    (hS : ∀ it ∈ m, (it.1 = id ∨ (S it.1 ∧ t0.get it.1 = false)) → S it.2) :
    ∀ (l : CascadeIndex), (∀ it ∈ l, it ∈ m ∧ it.1 = id) → ∀ t t2,
      (∀ x, t0.get x = true → t.get x = true) → (∀ x, t.get x = true → S x) →
      l.foldlM (cascadeStep F) t = some t2 → ∀ x, t2.get x = true → S x := by
  intro l
  induction l with
  | nil =>
    intro _ t t2 _ hin h
    simp only [List.foldlM_nil, pure, Option.some.injEq] at h
    subst h
    exact hin
  | cons it rest ih =>
    intro hl t t2 h0 hin h
    have hrest : ∀ a ∈ rest, a ∈ m ∧ a.1 = id :=
      fun a ha => hl a (List.mem_cons_of_mem _ ha)
    obtain ⟨hitm, hitid⟩ := hl it (List.mem_cons_self _ _)
    rw [List.foldlM_cons] at h
    cases hg : t.get it.2
    · simp only [cascadeStep, hg, Bool.false_eq_true, if_false] at h
      cases h1 : F (t.set it.2) it.2 with
      | none => rw [h1] at h; cases h
      | some t1 =>
        rw [h1] at h
        have hSp : S it.2 := hS it hitm (Or.inl hitid)
        have hp0 : t0.get it.2 = false := by
          cases hc : t0.get it.2
          · rfl
          · rw [h0 _ hc] at hg; cases hg
        have hin1 : ∀ x, t1.get x = true → S x := by
          apply hF _ _ _ h1 S
          · intro y hy
            rw [growing_bitset.get_set] at hy
            by_cases hyp : y = it.2
            · exact hyp ▸ hSp
            · rw [if_neg hyp] at hy; exact hin y hy
          · intro a ha hcase
            apply hS a ha
            rcases hcase with hk | ⟨hSa, hna⟩
            · exact Or.inr ⟨hk ▸ hSp, hk ▸ hp0⟩
            · refine Or.inr ⟨hSa, ?_⟩
              cases hc : t0.get a.1
              · rfl
              · rw [growing_bitset.get_set_of_get _ _ _ (h0 _ hc)] at hna; cases hna
        have hmono1 : ∀ x, t0.get x = true → t1.get x = true :=
          fun x hx => hmonoF _ _ _ h1 x (growing_bitset.get_set_of_get _ _ _ (h0 x hx))
        exact ih hrest t1 t2 hmono1 hin1 h
    · simp only [cascadeStep, hg, if_true] at h
      exact ih hrest t t2 h0 hin h

/-- Whenever the bounded cascade returns, everything it has added lies in every
set that contains the tracker and follows the pairs that start at `id` or at an
untracked member of the set. -/
theorem cascading_relations_fuel_white (m : CascadeIndex) :
    ∀ (fuel : Nat) (t : growing_bitset) (id : osm_object_id_t) (t2 : growing_bitset),
      cascading_relations_fuel m fuel t id = some t2 →
      ∀ S : osm_object_id_t → Prop, (∀ x, t.get x = true → S x) →
        (∀ it ∈ m, (it.1 = id ∨ (S it.1 ∧ t.get it.1 = false)) → S it.2) →
        ∀ x, t2.get x = true → S x := by
  intro fuel
  induction fuel with
  | zero => intro t id t2 h; cases h
  | succ fuel ih =>
    intro t id t2 h S hin hS
    rw [cascading_relations_fuel_succ] at h
    exact cascade_loop_white m _
      (fun a b c hc => (cascading_relations_fuel_spec m fuel a b c hc).mono) ih id t S hS
      (equal_range m id)
      (fun it hit => ⟨(List.mem_filter.mp hit).1, by simpa using (List.mem_filter.mp hit).2⟩)
      t t2 (fun _ hx => hx) hin h

/-- The cascade from `id` adds to the tracker exactly the ids it reaches through
untracked ids. -/
theorem cascading_relations_get (m : CascadeIndex) (t : growing_bitset)
    (id x : osm_object_id_t) :
    (cascading_relations m t id).get x = true ↔ t.get x = true ∨ White m t id x := by
  obtain ⟨t2, h⟩ := cascading_relations_fuel_isSome m t id
  have hc := cascading_relations_spec m t id
  have hw := cascading_relations_fuel_white m _ t id t2 h
  have heq : cascading_relations m t id = t2 := by
    unfold cascading_relations; rw [h]
  constructor
  · intro hx
    rw [heq] at hx
    apply hw (fun y => t.get y = true ∨ White m t id y) (fun y hy => Or.inl hy) _ x hx
    intro it hit hcase
    cases hp : t.get it.2
    · right
      rcases hcase with hk | ⟨hS, hn⟩
      · exact White.step it.2 (by rw [← hk]; exact hit) hp
      · rcases hS with hS | hS
        · rw [hS] at hn; cases hn
        · exact White.trans it.1 it.2 hS hit hp
    · exact Or.inl rfl
  · rintro (hx | hx)
    · exact hc.mono x hx
    · induction hx with
      | step p hp _ => exact hc.closed (id, p) hp (Or.inl rfl)
      | trans y p hy hp _ ih =>
        exact hc.closed (y, p) hp (Or.inr ⟨ih, white_untracked m t id y hy⟩)

/-- The result of a cascade depends on the multimap through the set of its pairs
only: neither their order nor their multiplicity matters. -/
theorem cascading_relations_congr (m m2 : CascadeIndex) (t : growing_bitset)
    (id : osm_object_id_t) (hm : ∀ it, it ∈ m ↔ it ∈ m2) :
    cascading_relations m t id = cascading_relations m2 t id := by
  apply growing_bitset.ext_get
  intro x
  apply Bool.eq_iff_iff.mpr
  rw [cascading_relations_get, cascading_relations_get]
  constructor
  · rintro (h | h)
    · exact Or.inl h
    · exact Or.inr (white_congr m m2 t id x hm h)
  · rintro (h | h)
    · exact Or.inl h
    · exact Or.inr (white_congr m2 m t id x (fun it => (hm it).symm) h)

/-- The relation callback on one extract depends on the multimap through the set
of its pairs only. -/
theorem relationStep_congr (r : Relation) (m m2 : CascadeIndex) (e : SoftcutExtractInfo)
    (hm : ∀ it, it ∈ m ↔ it ∈ m2) : relationStep r m e = relationStep r m2 e := by
  unfold relationStep
  rw [cascading_relations_congr m m2 _ _ hm]

end SoftcutPassOne

/-! ## Termination of the cascade -/

theorem filter_untracked_set_lt (l : List osm_object_id_t) (t : growing_bitset)
    (p : osm_object_id_t) (hp : p ∈ l) (hun : t.get p = false) :
    (l.filter (fun a => !(t.set p).get a)).length < (l.filter (fun a => !t.get a)).length := by
  have hff : l.filter (fun a => !(t.set p).get a)
      = (l.filter (fun a => !t.get a)).filter (fun a => !(t.set p).get a) := by
    rw [List.filter_filter]
    apply List.filter_congr
    intro a _
    cases h1 : t.get a
    · simp
    · simp [growing_bitset.get_set_of_get _ _ _ h1]
  rw [hff]
  apply List.length_filter_lt_length_iff_exists.mpr
  refine ⟨p, ?_, ?_⟩
  · simp [List.mem_filter, hp, hun]
  · simp [growing_bitset.get_set_self]

theorem untrackedParents_le_length (m : CascadeIndex) (t : growing_bitset) :
    untrackedParents m t ≤ m.length := by
  unfold untrackedParents
  calc ((m.map Prod.snd).dedup.filter (fun p => !t.get p)).length
      ≤ (m.map Prod.snd).dedup.length := List.length_filter_le _ _
    _ ≤ (m.map Prod.snd).length := (List.dedup_sublist _).length_le
    _ = m.length := List.length_map _ _

theorem untrackedParents_mono (m : CascadeIndex) (t t2 : growing_bitset)
    (h : ∀ x, t.get x = true → t2.get x = true) :
    untrackedParents m t2 ≤ untrackedParents m t := by
  unfold untrackedParents
  apply List.Sublist.length_le
  apply List.monotone_filter_right
  intro a ha
  cases h1 : t.get a
  · rfl
  · have h2 := h _ h1
    simp [h2] at ha

/-- Recording an untracked parent of the multimap lowers the number of untracked
parent ids. -/
theorem untrackedParents_set_lt (m : CascadeIndex) (t : growing_bitset)
    (it : osm_object_id_t × osm_object_id_t) (hit : it ∈ m) (hun : t.get it.2 = false) :
    untrackedParents m (t.set it.2) < untrackedParents m t := by
  unfold untrackedParents
  apply filter_untracked_set_lt _ t it.2 _ hun
  exact List.mem_dedup.mpr (List.mem_map_of_mem _ hit)

namespace SoftcutPassOne

/-- The loop of the cascade returns when every recursive call on a tracker with
fewer untracked parent ids does. -/
theorem cascade_loop_returns (m : CascadeIndex)
    (F : growing_bitset → osm_object_id_t → Option growing_bitset) (k : Nat)
    (hF : ∀ t id, untrackedParents m t < k →
      ∃ t2, F t id = some t2 ∧ ∀ x, t.get x = true → t2.get x = true) :
    ∀ (l : CascadeIndex), (∀ it ∈ l, it ∈ m) → ∀ t, untrackedParents m t ≤ k →
      ∃ t2, l.foldlM (cascadeStep F) t = some t2 ∧
        ∀ x, t.get x = true → t2.get x = true := by
  intro l
  induction l with
  | nil => intro _ t _; exact ⟨t, rfl, fun _ h => h⟩
  | cons it rest ih =>
    intro hl t ht
    have hrest : ∀ a ∈ rest, a ∈ m := fun a ha => hl a (List.mem_cons_of_mem _ ha)
    cases hg : t.get it.2
    · have hlt : untrackedParents m (t.set it.2) < k :=
        lt_of_lt_of_le (untrackedParents_set_lt m t it (hl it (List.mem_cons_self _ _)) hg) ht
      obtain ⟨t1, h1, hm1⟩ := hF (t.set it.2) it.2 hlt
      have hle1 : untrackedParents m t1 ≤ k :=
        le_trans (untrackedParents_mono m _ _ hm1) (le_of_lt hlt)
      obtain ⟨t2, h2, hm2⟩ := ih hrest t1 hle1
      refine ⟨t2, ?_, ?_⟩
      · simp [List.foldlM_cons, cascadeStep, hg, h1, h2]
      · intro x hx
        exact hm2 x (hm1 x (growing_bitset.get_set_of_get _ _ _ hx))
    · obtain ⟨t2, h2, hm2⟩ := ih hrest t ht
      refine ⟨t2, ?_, hm2⟩
      simp [List.foldlM_cons, cascadeStep, hg, h2]

/-- With more fuel than untracked parent ids the cascade returns. -/
theorem cascading_relations_fuel_returns (m : CascadeIndex) :
    ∀ (fuel : Nat) (t : growing_bitset) (id : osm_object_id_t),
      untrackedParents m t < fuel →
      ∃ t2, cascading_relations_fuel m fuel t id = some t2 ∧
        ∀ x, t.get x = true → t2.get x = true := by
  intro fuel
  induction fuel with
  | zero => intro t id h; exact absurd h (Nat.not_lt_zero _)
  | succ fuel ih =>
    intro t id h
    rw [cascading_relations_fuel_succ]
    apply cascade_loop_returns m _ fuel ih
    · intro it hit
      exact (List.mem_filter.mp hit).1
    · exact Nat.lt_succ_iff.mp h

theorem cascade_loop_more_fuel
    (F G : growing_bitset → osm_object_id_t → Option growing_bitset)
    (hFG : ∀ t id t2, F t id = some t2 → G t id = some t2) :
    ∀ (l : CascadeIndex) (t t2 : growing_bitset),
      l.foldlM (cascadeStep F) t = some t2 → l.foldlM (cascadeStep G) t = some t2 := by
  intro l
  induction l with
  | nil => intro t t2 h; exact h
  | cons it rest ih =>
    intro t t2 h
    rw [List.foldlM_cons] at h ⊢
    cases hg : t.get it.2
    · simp only [cascadeStep, hg, Bool.false_eq_true, if_false] at h ⊢
      cases h1 : F (t.set it.2) it.2 with
      | none => rw [h1] at h; cases h
      | some t1 =>
        rw [h1] at h
        rw [hFG _ _ _ h1]
        exact ih t1 t2 h
    · simp only [cascadeStep, hg, if_true] at h ⊢
      exact ih t t2 h

/-- A result of the bounded cascade is not changed by more fuel. -/
theorem cascading_relations_fuel_mono (m : CascadeIndex) :
    ∀ (fuel fuel2 : Nat), fuel ≤ fuel2 →
      ∀ (t : growing_bitset) (id : osm_object_id_t) (t2 : growing_bitset),
        cascading_relations_fuel m fuel t id = some t2 →
        cascading_relations_fuel m fuel2 t id = some t2 := by
  intro fuel
  induction fuel with
  | zero => intro _ _ t id t2 h; cases h
  | succ fuel ih =>
    intro fuel2 hle t id t2 h
    obtain ⟨k, rfl⟩ : ∃ k, fuel2 = k + 1 := ⟨fuel2 - 1, by omega⟩
    rw [cascading_relations_fuel_succ] at h ⊢
    exact cascade_loop_more_fuel _ _ (fun a b c hc => ih k (by omega) a b c hc) _ t t2 h

end SoftcutPassOne

/-- C11. The method `cascading_relations` terminates for every multimap, every
tracker and every start id, cycles of relations included: the recursion, run
with any bound above the number of untracked parent ids of the multimap,
returns, and always with the same tracker (the result of `cascading_relations`);
every recursive call is made after recording a parent of the multimap that was
not tracked, which lowers that number; and the number is at most the size of the
multimap. -/
theorem cascading_relations_terminates (m : CascadeIndex) (t : growing_bitset)
    (id : osm_object_id_t) :
    (∀ fuel, untrackedParents m t < fuel →
      SoftcutPassOne.cascading_relations_fuel m fuel t id
        = some (SoftcutPassOne.cascading_relations m t id)) ∧
    (∀ it ∈ m, t.get it.2 = false →
      untrackedParents m (t.set it.2) < untrackedParents m t) ∧
    untrackedParents m t ≤ m.length := by
  refine ⟨?_, fun it hit hun => untrackedParents_set_lt m t it hit hun,
    untrackedParents_le_length m t⟩
  intro fuel hfuel
  obtain ⟨t2, h, _⟩ := SoftcutPassOne.cascading_relations_fuel_returns m
    (untrackedParents m t + 1) t id (Nat.lt_succ_self _)
  have h1 := SoftcutPassOne.cascading_relations_fuel_mono m _ fuel hfuel t id t2 h
  have h2 := SoftcutPassOne.cascading_relations_fuel_mono m _ (m.length + 1)
    (Nat.succ_le_succ (untrackedParents_le_length m t)) t id t2 h
  rw [h1]
  unfold SoftcutPassOne.cascading_relations
  rw [h2]

/-- C11 on the cycle of relations 700 and 800: the cascade from 700, with 700
tracked, returns with a bound of 2 and has recorded 800. -/
theorem cascading_relations_terminates_on_cycle :
    SoftcutPassOne.cascading_relations_fuel cycleIndex 2 (growing_bitset.empty.set 700) 700
      = some (SoftcutPassOne.cascading_relations cycleIndex (growing_bitset.empty.set 700) 700) ∧
    (SoftcutPassOne.cascading_relations cycleIndex
      (growing_bitset.empty.set 700) 700).get 800 = true :=
  ⟨(cascading_relations_terminates cycleIndex (growing_bitset.empty.set 700) 700).1 2
     (by decide), by decide⟩

/-! ## The callbacks, position by position -/

namespace SoftcutPassOne

theorem node_forall₂ (info : SoftcutInfo) (n : Node) :
    List.Forall₂
      (fun e e2 => e2 =
        if e.contains n then { e with node_tracker := e.node_tracker.set n.id } else e)
      info.extracts (node info n).extracts := by
  simp only [node]
  rw [List.forall₂_map_right_iff, List.forall₂_same]
  intro e _
  rfl

theorem way_forall₂ (info : SoftcutInfo) (w : Way) :
    List.Forall₂ (fun e e2 => e2 = way_extract w e) info.extracts (way info w).extracts := by
  simp only [way]
  rw [List.forall₂_map_right_iff, List.forall₂_same]
  intro e _
  rfl

/-- The multimap after the loop over the extracts: the pairs of the relation
version have been appended once for every extract. -/
theorem relation_loop_snd (r : Relation) :
    ∀ (es : List SoftcutExtractInfo) (m : CascadeIndex),
      (relation_loop r es m).2
        = m ++ (List.replicate es.length (cascadePairs r)).flatten := by
  intro es
  induction es with
  | nil => intro m; simp [relation_loop]
  | cons e rest ih =>
    intro m
    simp only [relation_loop, relation_extract_eq, ih, List.length_cons,
      List.replicate_succ, List.flatten_cons, List.append_assoc]

/-- A run over records of one sort keeps whatever every callback of that sort
keeps, position by position. -/
theorem run_map_of_frame {α : Type} (P : Record → Prop) (f : SoftcutExtractInfo → α)
    (hstep : ∀ s x, P x → (handle s x).extracts.map f = s.extracts.map f)
    (info : SoftcutInfo) :
    ∀ input, (∀ x ∈ input, P x) → (run input info).extracts.map f = info.extracts.map f := by
  apply run_invariant_on P (fun _ s => s.extracts.map f = info.extracts.map f)
  · rfl
  · intro pre s x hx ih
    rw [hstep s x hx, ih]

theorem way_keeps_node_tracker (s : SoftcutInfo) (w : Way) :
    (way s w).extracts.map (fun e => e.node_tracker)
      = s.extracts.map (fun e => e.node_tracker) := by
  apply forall₂_map_eq (way_forall₂ s w)
  rintro a b rfl
  rfl

theorem relation_keeps_node_tracker (s : SoftcutInfo) (r : Relation) :
    (relation s r).extracts.map (fun e => e.node_tracker)
      = s.extracts.map (fun e => e.node_tracker) := by
  apply forall₂_map_eq (relation_forall₂ s r)
  rintro a b ⟨m2, _, rfl⟩
  rfl

theorem relation_keeps_way_tracker (s : SoftcutInfo) (r : Relation) :
    (relation s r).extracts.map (fun e => e.way_tracker)
      = s.extracts.map (fun e => e.way_tracker) := by
  apply forall₂_map_eq (relation_forall₂ s r)
  rintro a b ⟨m2, _, rfl⟩
  rfl

end SoftcutPassOne

/-- C13 as stated fails: with two regions, one relation version with one member
of type relation adds the pair twice to the multimap, not once; with no region
it adds nothing. -/
theorem cascade_pair_inserted_once_per_region :
    (SoftcutPassOne.relation (SoftcutInfo.new [unitBox, unitBox])
      ⟨600, 1, [⟨'r', 500⟩]⟩).cascading_relations_tracker = [(500, 600), (500, 600)] ∧
    (SoftcutPassOne.relation (SoftcutInfo.new [unitBox, unitBox])
      ⟨600, 1, [⟨'r', 500⟩]⟩).cascading_relations_tracker
      ≠ (SoftcutInfo.new [unitBox, unitBox]).cascading_relations_tracker
          ++ cascadePairs ⟨600, 1, [⟨'r', 500⟩]⟩ ∧
    (SoftcutPassOne.relation (SoftcutInfo.new [])
      ⟨600, 1, [⟨'r', 500⟩]⟩).cascading_relations_tracker = [] := by
  decide

/-- C13, amended. For every state and every relation version, the callback
`SoftcutPassOne::relation` appends to the multimap, once for every region, the
pairs (member.ref, id) of the members of type relation, in member order: with
`k` regions every such member gains `k` entries, whatever the trackers hold. -/
theorem relation_inserts_pairs_per_region (info : SoftcutInfo) (r : Relation) :
    (SoftcutPassOne.relation info r).cascading_relations_tracker
      = info.cascading_relations_tracker
          ++ (List.replicate info.extracts.length
              ((r.members.filter (fun mb => mb.type == 'r')).map
                (fun mb => (mb.ref, r.id)))).flatten :=
  SoftcutPassOne.relation_loop_snd r info.extracts info.cascading_relations_tracker

/-- C15. Frame of the callbacks of pass one, extract by extract in order. The
node callback changes nothing but `node_tracker`. The way callback changes
neither `node_tracker` nor `relation_tracker` nor the multimap, and leaves alone
an extract none of whose tracked nodes the way references. The relation callback
changes neither `node_tracker` nor `way_tracker` nor `extra_node_tracker`. Hence,
on a type-grouped input, `node_tracker` is final after the node versions and
`way_tracker` is final after the node and way versions. -/
theorem passOne_callbacks_frame :
    (∀ (info : SoftcutInfo) (n : Node),
      (SoftcutPassOne.node info n).cascading_relations_tracker
        = info.cascading_relations_tracker ∧
      List.Forall₂
        (fun e e2 => e2.contains = e.contains ∧ e2.writer = e.writer ∧
          e2.extra_node_tracker = e.extra_node_tracker ∧
          e2.way_tracker = e.way_tracker ∧ e2.relation_tracker = e.relation_tracker)
        info.extracts (SoftcutPassOne.node info n).extracts) ∧
    (∀ (info : SoftcutInfo) (w : Way),
      (SoftcutPassOne.way info w).cascading_relations_tracker
        = info.cascading_relations_tracker ∧
      List.Forall₂
        (fun e e2 => e2.contains = e.contains ∧ e2.writer = e.writer ∧
          e2.node_tracker = e.node_tracker ∧ e2.relation_tracker = e.relation_tracker ∧
          ((∀ ref ∈ w.nodes, e.node_tracker.get ref = false) → e2 = e))
        info.extracts (SoftcutPassOne.way info w).extracts) ∧
    (∀ (info : SoftcutInfo) (r : Relation),
      List.Forall₂
        (fun e e2 => e2.contains = e.contains ∧ e2.writer = e.writer ∧
          e2.node_tracker = e.node_tracker ∧ e2.way_tracker = e.way_tracker ∧
          e2.extra_node_tracker = e.extra_node_tracker)
        info.extracts (SoftcutPassOne.relation info r).extracts) ∧
    (∀ (input : List Record) (info : SoftcutInfo), typeGrouped input →
      (SoftcutPassOne.run input info).extracts.map (fun e => e.node_tracker)
        = (SoftcutPassOne.run ((nodesOf input).map Record.node) info).extracts.map
            (fun e => e.node_tracker) ∧
      (SoftcutPassOne.run input info).extracts.map (fun e => e.way_tracker)
        = (SoftcutPassOne.run ((nodesOf input).map Record.node
            ++ (waysOf input).map Record.way) info).extracts.map
            (fun e => e.way_tracker)) := by
  refine ⟨?_, ?_, ?_, ?_⟩
  · intro info n
    refine ⟨rfl, (SoftcutPassOne.node_forall₂ info n).imp ?_⟩
    rintro e e2 rfl
    split <;> exact ⟨rfl, rfl, rfl, rfl, rfl⟩
  · intro info w
    refine ⟨rfl, (SoftcutPassOne.way_forall₂ info w).imp ?_⟩
    rintro e e2 rfl
    refine ⟨rfl, rfl, rfl, rfl, ?_⟩
    intro hno
    have hany : ¬ w.nodes.any e.node_tracker.get = true := by
      intro hc
      obtain ⟨ref, href, hget⟩ := List.any_eq_true.mp hc
      rw [hno ref href] at hget
      cases hget
    cases e
    simp_all [SoftcutPassOne.way_extract, SoftcutPassOne.way_scan_eq]
  · intro info r
    refine (SoftcutPassOne.relation_forall₂ info r).imp ?_
    rintro e e2 ⟨m2, _, rfl⟩
    exact ⟨rfl, rfl, rfl, rfl, rfl⟩
  · intro input info h
    have hw : ∀ x ∈ (waysOf input).map Record.way, ∃ w, x = Record.way w := by
      intro x hx
      obtain ⟨w, _, rfl⟩ := List.mem_map.mp hx
      exact ⟨w, rfl⟩
    have hr : ∀ x ∈ (relationsOf input).map Record.relation, ∃ r, x = Record.relation r := by
      intro x hx
      obtain ⟨r, _, rfl⟩ := List.mem_map.mp hx
      exact ⟨r, rfl⟩
    have hsplit : SoftcutPassOne.run input info
        = SoftcutPassOne.run ((relationsOf input).map Record.relation)
            (SoftcutPassOne.run ((waysOf input).map Record.way)
              (SoftcutPassOne.run ((nodesOf input).map Record.node) info)) := by
      rw [← SoftcutPassOne.run_append, ← SoftcutPassOne.run_append, ← List.append_assoc]
      exact congrArg (fun l => SoftcutPassOne.run l info) h
    constructor
    · rw [hsplit,
        SoftcutPassOne.run_map_of_frame (fun x => ∃ r, x = Record.relation r) _
          (by rintro s x ⟨r, rfl⟩; exact SoftcutPassOne.relation_keeps_node_tracker s r) _ _ hr,
        SoftcutPassOne.run_map_of_frame (fun x => ∃ w, x = Record.way w) _
          (by rintro s x ⟨w, rfl⟩; exact SoftcutPassOne.way_keeps_node_tracker s w) _ _ hw]
    · rw [hsplit, SoftcutPassOne.run_append,
        SoftcutPassOne.run_map_of_frame (fun x => ∃ r, x = Record.relation r) _
          (by rintro s x ⟨r, rfl⟩; exact SoftcutPassOne.relation_keeps_way_tracker s r) _ _ hr]

/-! ## One region among several -/

theorem forall₂_comp {α β γ : Type} {R : α → β → Prop} {Q : β → γ → Prop}
    {T : α → γ → Prop} :
    ∀ {l1 : List α} {l2 : List β} {l3 : List γ}, List.Forall₂ R l1 l2 →
      List.Forall₂ Q l2 l3 → (∀ a b c, R a b → Q b c → T a c) → List.Forall₂ T l1 l3 := by
  intro l1 l2 l3 h1
  induction h1 generalizing l3 with
  | nil =>
    intro h2 _
    cases h2
    exact List.Forall₂.nil
  | cons hab _ ih =>
    intro h2 h
    cases h2 with
    | cons hbc hrest => exact List.Forall₂.cons (h _ _ _ hab hbc) (ih hrest h)

theorem forall₂_eq_map {α β : Type} {f : α → β} {l1 : List α} {l2 : List β}
    (h : List.Forall₂ (fun a b => b = f a) l1 l2) : l2 = l1.map f := by
  induction h with
  | nil => rfl
  | cons hab _ ih => rw [hab, ih]; rfl

theorem forall₂_ne_nil {α β : Type} {R : α → β → Prop} {l1 : List α} {l2 : List β}
    (h : List.Forall₂ R l1 l2) (hne : l1 ≠ []) : l2 ≠ [] := by
  cases h with
  | nil => exact absurd rfl hne
  | cons _ _ => exact List.cons_ne_nil _ _

namespace SoftcutPassOne

/-- With at least one region, the multimap holds exactly the pairs of the
relation versions seen so far, whatever the regions are. -/
theorem mem_run_tracker (input : List Record) (regions : List (Node → Bool))
    (hne : regions ≠ []) (it : osm_object_id_t × osm_object_id_t) :
    it ∈ (run input (SoftcutInfo.new regions)).cascading_relations_tracker ↔
      ∃ v, Record.relation v ∈ input ∧ it ∈ cascadePairs v := by
  obtain ⟨hps, hpc, _⟩ := run_cascade_invariant input regions
  have hex : (run input (SoftcutInfo.new regions)).extracts ≠ [] := by
    intro h0
    have hc := run_new_contains input regions
    rw [h0] at hc
    exact hne hc.symm
  constructor
  · exact hps it
  · rintro ⟨v, hv, hp⟩
    exact hpc hex v hv it hp

/-- The callbacks on a state with a single extract. -/
theorem handle_single (s : SoftcutInfo) (e : SoftcutExtractInfo) (h : s.extracts = [e])
    (x : Record) :
    (handle s x).extracts
      = [match x with
         | .node n =>
           if e.contains n then { e with node_tracker := e.node_tracker.set n.id } else e
         | .way w => way_extract w e
         | .relation r => relationStep r (s.cascading_relations_tracker ++ cascadePairs r) e] := by
  cases x with
  | node n => simp [handle, node, h]
  | way w => simp [handle, way, h]
  | relation r => simp [handle, relation, h, relation_loop, relation_extract_eq]

/-- Pass one treats every region as if it were the only one: the extract of a
region after a run with several regions is the extract after the run with that
region alone. -/
theorem run_alone (regions : List (Node → Bool)) :
    ∀ input : List Record,
      List.Forall₂ (fun c e => (run input (SoftcutInfo.new [c])).extracts = [e])
        regions (run input (SoftcutInfo.new regions)).extracts := by
  intro input
  induction input using List.reverseRecOn with
  | nil =>
    simp only [run_nil, SoftcutInfo.new]
    rw [List.forall₂_map_right_iff, List.forall₂_same]
    intro c _
    rfl
  | append_singleton pre x ih =>
    rw [run_append]
    have hsolo : ∀ c, run (pre ++ [x]) (SoftcutInfo.new [c])
        = handle (run pre (SoftcutInfo.new [c])) x := fun c => run_append pre [x] _
    by_cases hne : regions = []
    · subst hne
      have h0 : (run pre (SoftcutInfo.new [])).extracts = [] :=
        List.forall₂_nil_left_iff.mp ih
      have h1 : (handle (run pre (SoftcutInfo.new [])) x).extracts = [] := by
        have hc := congrArg List.length (handle_contains_writer (run pre (SoftcutInfo.new [])) x)
        simp only [List.length_map, h0, List.length_nil] at hc
        exact List.length_eq_zero.mp hc
      change List.Forall₂ _ [] (handle (run pre (SoftcutInfo.new [])) x).extracts
      rw [h1]
      exact List.Forall₂.nil
    · have hcrt : ∀ c it, it ∈ (run pre (SoftcutInfo.new regions)).cascading_relations_tracker ↔
          it ∈ (run pre (SoftcutInfo.new [c])).cascading_relations_tracker := by
        intro c it
        rw [mem_run_tracker pre regions hne, mem_run_tracker pre [c] (List.cons_ne_nil _ _)]
      cases x with
      | node n =>
        apply forall₂_comp ih (node_forall₂ _ n)
        rintro c e e2 hce rfl
        rw [hsolo, handle_single _ e hce]
      | way w =>
        apply forall₂_comp ih (way_forall₂ _ w)
        rintro c e e2 hce rfl
        rw [hsolo, handle_single _ e hce]
      | relation r =>
        apply forall₂_comp ih (relation_forall₂ _ r)
        rintro c e e2 hce ⟨m2, hm2, rfl⟩
        rw [hsolo, handle_single _ e hce]
        simp only [List.cons.injEq, and_true]
        apply relationStep_congr
        intro it
        rw [hm2 it, List.mem_append, hcrt c it]

end SoftcutPassOne

/-- C12. Regions do not interfere, on every input stream and for every list of
regions: the extract of every region after pass one (its four trackers
included) is the extract obtained by running pass one on the same input with
that region alone, and the same holds after both passes, writer included,
although the regions share the multimap. The regions are paired with the
extracts in order. -/
theorem regions_do_not_interfere (input : List Record) (regions : List (Node → Bool)) :
    List.Forall₂
      (fun c e => (SoftcutPassOne.run input (SoftcutInfo.new [c])).extracts = [e])
      regions (SoftcutPassOne.run input (SoftcutInfo.new regions)).extracts ∧
    List.Forall₂
      (fun c e2 =>
        (SoftcutPassTwo.run input
          (SoftcutPassOne.run input (SoftcutInfo.new [c]))).extracts = [e2])
      regions
      (SoftcutPassTwo.run input
        (SoftcutPassOne.run input (SoftcutInfo.new regions))).extracts := by
  refine ⟨SoftcutPassOne.run_alone regions input, ?_⟩
  rw [passes_extracts, List.forall₂_map_right_iff]
  refine (SoftcutPassOne.run_alone regions input).imp ?_
  intro c e h
  rw [passes_extracts, h]
  rfl

/-! ## The order of the members -/

theorem forall₂_unique {α β : Type} {R Q : α → β → Prop} :
    ∀ {l : List α} {l1 l2 : List β}, List.Forall₂ R l l1 → List.Forall₂ Q l l2 →
      (∀ a b c, R a b → Q a c → b = c) → l1 = l2 := by
  intro l l1 l2 h1
  induction h1 generalizing l2 with
  | nil => intro h2 _; cases h2; rfl
  | cons hab _ ih =>
    intro h2 h
    cases h2 with
    | cons hac hrest => rw [h _ _ _ hab hac, ih hrest h]

namespace SoftcutPassOne

/-- The relation callback on one extract reads the members as a set. -/
theorem relationStep_perm (r r2 : Relation) (m m2 : CascadeIndex) (e : SoftcutExtractInfo)
    (hid : r2.id = r.id) (hmem : ∀ mb, mb ∈ r2.members ↔ mb ∈ r.members)
    (hm : ∀ it, it ∈ m2 ↔ it ∈ m) : relationStep r2 m2 e = relationStep r m e := by
  have hany : r2.members.any (memberHit e) = r.members.any (memberHit e) := by
    apply Bool.eq_iff_iff.mpr
    rw [List.any_eq_true, List.any_eq_true]
    exact exists_congr fun mb => by rw [hmem mb]
  unfold relationStep
  rw [hany, hid, cascading_relations_congr m2 m _ _ hm]

theorem cascadePairs_perm (r r2 : Relation) (hid : r2.id = r.id)
    (hmem : ∀ mb, mb ∈ r2.members ↔ mb ∈ r.members)
    (it : osm_object_id_t × osm_object_id_t) :
    it ∈ cascadePairs r2 ↔ it ∈ cascadePairs r := by
  unfold cascadePairs
  rw [mem_memberPairs, mem_memberPairs, hid]
  exact exists_congr fun mb => by rw [hmem mb]

end SoftcutPassOne

/-- C17. Member order does not matter: for every state, every list of regions
and every relation version, processing the version with `SoftcutPassOne::relation`
and processing it with its member list permuted give the same extracts (hence
the same trackers for every region) and the same set of pairs in the multimap,
also when the relation lists itself as a member. -/
theorem relation_member_order_irrelevant (info : SoftcutInfo) (r r2 : Relation)
    (hid : r2.id = r.id) (hperm : List.Perm r2.members r.members) :
    (SoftcutPassOne.relation info r2).extracts = (SoftcutPassOne.relation info r).extracts ∧
    ∀ it, it ∈ (SoftcutPassOne.relation info r2).cascading_relations_tracker ↔
      it ∈ (SoftcutPassOne.relation info r).cascading_relations_tracker := by
  have hmem : ∀ mb, mb ∈ r2.members ↔ mb ∈ r.members := fun mb => hperm.mem_iff
  have hcp := SoftcutPassOne.cascadePairs_perm r r2 hid hmem
  constructor
  · apply forall₂_unique (SoftcutPassOne.relation_forall₂ info r2)
      (SoftcutPassOne.relation_forall₂ info r)
    rintro e b c ⟨m2, hm2, rfl⟩ ⟨m, hm, rfl⟩
    apply SoftcutPassOne.relationStep_perm r r2 m m2 e hid hmem
    intro it
    rw [hm2 it, hm it, hcp it]
  · intro it
    rw [SoftcutPassOne.mem_relation_tracker, SoftcutPassOne.mem_relation_tracker, hcp it]

/-- Witness of C17: relation 700, which lists itself as a member, in two member
orders, after node 1 has been seen by two regions. -/
theorem relation_member_order_irrelevant_witness :
    selfMemberPermuted.id = selfMember.id ∧
    List.Perm selfMemberPermuted.members selfMember.members ∧
    (SoftcutPassOne.relation
      (SoftcutPassOne.run [.node ⟨1, 1, 0, 0⟩] (SoftcutInfo.new [unitBox, everywhere]))
      selfMemberPermuted).extracts
      = (SoftcutPassOne.relation
          (SoftcutPassOne.run [.node ⟨1, 1, 0, 0⟩] (SoftcutInfo.new [unitBox, everywhere]))
          selfMember).extracts ∧
    ∀ it, it ∈ (SoftcutPassOne.relation
        (SoftcutPassOne.run [.node ⟨1, 1, 0, 0⟩] (SoftcutInfo.new [unitBox, everywhere]))
        selfMemberPermuted).cascading_relations_tracker ↔
      it ∈ (SoftcutPassOne.relation
        (SoftcutPassOne.run [.node ⟨1, 1, 0, 0⟩] (SoftcutInfo.new [unitBox, everywhere]))
        selfMember).cascading_relations_tracker :=
  have hperm : List.Perm selfMemberPermuted.members selfMember.members := by
    unfold selfMemberPermuted selfMember
    exact (List.Perm.swap _ _ _).trans
      ((List.Perm.cons _ (List.Perm.swap _ _ _)).trans (List.Perm.swap _ _ _))
  ⟨rfl, hperm, relation_member_order_irrelevant _ selfMember selfMemberPermuted rfl hperm⟩

/-! ## The insertion of the pairs, inside or before the region loop -/

namespace SoftcutPassOne

theorem insert_pairs_eq (r : Relation) (m : CascadeIndex) :
    insert_pairs r m = m ++ cascadePairs r := by
  unfold insert_pairs cascadePairs
  generalize r.members = members
  induction members generalizing m with
  | nil => simp [memberPairs]
  | cons mb rest ih =>
    rw [List.foldl_cons, ih, memberPairs_cons]
    split <;> simp

/-- The member loop without the insertion computes the flag and the tracker of
the member loop of the source. -/
theorem relation_member_hoisted_foldl (e : SoftcutExtractInfo) (r : Relation) :
    ∀ (members : List RelationMember) (s : MemberScan),
      members.foldl (relation_member_hoisted e r) (s.hit, s.relation_tracker)
        = ((members.foldl (relation_member e r) s).hit,
           (members.foldl (relation_member e r) s).relation_tracker) := by
  intro members
  induction members with
  | nil => intro s; rfl
  | cons mb rest ih =>
    intro s
    rw [List.foldl_cons, List.foldl_cons, ← ih (relation_member e r s mb)]
    rfl

theorem relation_extract_hoisted_eq (r : Relation) (m : CascadeIndex)
    (e : SoftcutExtractInfo) : relation_extract_hoisted r m e = relationStep r m e := by
  have h := relation_member_hoisted_foldl e r r.members ⟨false, e.relation_tracker, []⟩
  rw [relation_member_foldl] at h
  simp only at h
  unfold relation_extract_hoisted relationStep
  rw [h]
  by_cases hany : r.members.any (memberHit e) = true <;> simp [hany]

theorem run_hoisted_append (a b : List Record) (info : SoftcutInfo) :
    run_hoisted (a ++ b) info = run_hoisted b (run_hoisted a info) :=
  List.foldl_append _ _ _ _

/-- From any state, the two variants of pass one give the same extracts, and
multimaps with the same pairs when there is an extract at all. -/
theorem run_hoisted_extracts (info : SoftcutInfo) :
    ∀ input : List Record,
      (run input info).extracts = (run_hoisted input info).extracts ∧
      ((run input info).extracts ≠ [] →
        ∀ it, it ∈ (run input info).cascading_relations_tracker ↔
          it ∈ (run_hoisted input info).cascading_relations_tracker) := by
  intro input
  induction input using List.reverseRecOn with
  | nil => exact ⟨rfl, fun _ _ => Iff.rfl⟩
  | append_singleton pre x ih =>
    obtain ⟨hex, hcrt⟩ := ih
    rw [run_append, run_hoisted_append]
    have hnil : (run_hoisted pre info).extracts = [] → (run pre info).extracts = [] :=
      fun h => hex.trans h
    cases x with
    | node n =>
      refine ⟨?_, ?_⟩
      · show (node _ n).extracts = (node _ n).extracts
        simp only [node, hex]
      · intro hne
        apply hcrt
        intro h0
        apply hne
        show (node _ n).extracts = []
        simp [node, h0]
    | way w =>
      refine ⟨?_, ?_⟩
      · show (way _ w).extracts = (way _ w).extracts
        simp only [way, hex]
      · intro hne
        apply hcrt
        intro h0
        apply hne
        show (way _ w).extracts = []
        simp [way, h0]
    | relation r =>
      show (relation (run pre info) r).extracts
          = (relation_hoisted (run_hoisted pre info) r).extracts ∧
        ((relation (run pre info) r).extracts ≠ [] →
          ∀ it, it ∈ (relation (run pre info) r).cascading_relations_tracker ↔
            it ∈ (relation_hoisted (run_hoisted pre info) r).cascading_relations_tracker)
      by_cases h0 : (run pre info).extracts = []
      · have h1 : (relation (run pre info) r).extracts = [] := by
          have hf := relation_forall₂ (run pre info) r
          rw [h0] at hf
          exact List.forall₂_nil_left_iff.mp hf
        refine ⟨?_, fun hne => absurd h1 hne⟩
        rw [h1]
        simp [relation_hoisted, ← hex, h0]
      · have hc := hcrt h0
        have hf : List.Forall₂
            (fun e e2 => e2 = relationStep r
              ((run_hoisted pre info).cascading_relations_tracker ++ cascadePairs r) e)
            (run pre info).extracts (relation (run pre info) r).extracts := by
          refine (relation_forall₂ (run pre info) r).imp ?_
          rintro e e2 ⟨m2, hm2, rfl⟩
          apply relationStep_congr
          intro it
          rw [hm2 it, List.mem_append, hc it]
        refine ⟨?_, ?_⟩
        · rw [forall₂_eq_map hf, hex]
          simp only [relation_hoisted, insert_pairs_eq]
          apply List.map_congr_left
          intro e _
          rw [relation_extract_hoisted_eq]
        · intro _ it
          rw [mem_relation_tracker]
          simp only [relation_hoisted, insert_pairs_eq, List.mem_append, hc it]
          constructor
          · rintro (h | ⟨_, h⟩)
            · exact Or.inl h
            · exact Or.inr h
          · rintro (h | h)
            · exact Or.inl h
            · exact Or.inr ⟨h0, h⟩

end SoftcutPassOne

/-- C18. Inserting the pairs inside the loop over the regions, as the source
does, and inserting every pair exactly once before that loop give the same
extracts after pass one, on every input stream and for every list of regions:
`node_tracker`, `extra_node_tracker`, `way_tracker` and `relation_tracker` of
every region are identical in both variants. -/
theorem hoisted_insertion_gives_same_trackers (input : List Record)
    (regions : List (Node → Bool)) :
    (SoftcutPassOne.run input (SoftcutInfo.new regions)).extracts
      = (SoftcutPassOne.run_hoisted input (SoftcutInfo.new regions)).extracts :=
  (SoftcutPassOne.run_hoisted_extracts (SoftcutInfo.new regions) input).1

/-- C14. After pass one over a type-grouped input, for every region and every
node id `n`: `n` is in `extra_node_tracker` if and only if `n` is referenced by
some way version of the input that also references a node id in `node_tracker`;
and whenever `way_tracker` is not empty, some node id is in both `node_tracker`
and `extra_node_tracker`. -/
theorem passOne_extra_node_tracker_iff (input : List Record)
    (regions : List (Node → Bool)) (h : typeGrouped input) :
    List.Forall₂
      (fun _ e =>
        (∀ n, e.extra_node_tracker.get n = true ↔
          ∃ v, Record.way v ∈ input ∧ n ∈ v.nodes ∧
            ∃ ref ∈ v.nodes, e.node_tracker.get ref = true) ∧
        ((∃ w, e.way_tracker.get w = true) →
          ∃ n, e.node_tracker.get n = true ∧ e.extra_node_tracker.get n = true))
      regions (SoftcutPassOne.run input (SoftcutInfo.new regions)).extracts := by
  apply forall₂_of_map_eq (fun e => e.contains) _ regions _
    (SoftcutPassOne.run_new_contains input regions)
  intro e he
  have hw := (SoftcutPassOne.run_typeGrouped input regions h e he).1
  refine ⟨hw.extra_iff, ?_⟩
  rintro ⟨w, hget⟩
  obtain ⟨v, hv, _, ref, href, hnt⟩ := (hw.way_iff w).mp hget
  exact ⟨ref, hnt, (hw.extra_iff ref).mpr ⟨v, hv, href, ref, href, hnt⟩⟩

/-- Witness of C14 on scenario A with the unit box. -/
theorem passOne_extra_node_tracker_iff_witness :
    typeGrouped scenarioA ∧
    List.Forall₂
      (fun _ e =>
        (∀ n, e.extra_node_tracker.get n = true ↔
          ∃ v, Record.way v ∈ scenarioA ∧ n ∈ v.nodes ∧
            ∃ ref ∈ v.nodes, e.node_tracker.get ref = true) ∧
        ((∃ w, e.way_tracker.get w = true) →
          ∃ n, e.node_tracker.get n = true ∧ e.extra_node_tracker.get n = true))
      [unitBox] (SoftcutPassOne.run scenarioA (SoftcutInfo.new [unitBox])).extracts :=
  ⟨by decide, passOne_extra_node_tracker_iff scenarioA [unitBox] (by decide)⟩

/-- C16. Relations can have dead references: on the type-grouped input
`deadReference`, with the unit box as the only region, the two passes send
relation 500 to the writer, and its member way 100, which is in the input, is
not sent. -/
theorem relations_can_have_dead_references :
    ∃ (input : List Record) (c : Node → Bool) (out : List Record),
      typeGrouped input ∧
      (SoftcutPassTwo.run input
        (SoftcutPassOne.run input (SoftcutInfo.new [c]))).extracts.map
        (fun e => e.writer) = [out] ∧
      ∃ (r : Relation) (mb : RelationMember) (w : Way),
        Record.relation r ∈ out ∧ mb ∈ r.members ∧ mb.type = 'w' ∧ mb.ref = w.id ∧
        Record.way w ∈ input ∧ Record.way w ∉ out := by
  refine ⟨deadReference, unitBox,
    [.node ⟨1, 1, 0, 0⟩, .relation ⟨500, 1, [⟨'n', 1⟩, ⟨'w', 100⟩]⟩],
    by decide, by decide,
    ⟨500, 1, [⟨'n', 1⟩, ⟨'w', 100⟩]⟩, ⟨'w', 100⟩, ⟨100, 1, [2]⟩, ?_⟩
  decide

/-! ## The round trip through a region that accepts everything -/

/-- With a single region, both passes leave one extract, whose writer holds the
input filtered by the membership predicate of the extract after pass one. -/
theorem single_region_passes (input : List Record) (c : Node → Bool) :
    ∃ e1, (SoftcutPassOne.run input (SoftcutInfo.new [c])).extracts = [e1] ∧
      e1.contains = c ∧
      (SoftcutPassTwo.run input
        (SoftcutPassOne.run input (SoftcutInfo.new [c]))).extracts.map
        (fun e => e.writer) = [input.filter (membership e1)] := by
  have hc := SoftcutPassOne.run_new_contains input [c]
  cases hl : (SoftcutPassOne.run input (SoftcutInfo.new [c])).extracts with
  | nil => rw [hl] at hc; cases hc
  | cons e1 rest =>
    rw [hl] at hc
    simp only [List.map_cons, List.cons.injEq, List.map_eq_nil_iff] at hc
    obtain ⟨hce, hrest⟩ := hc
    subst hrest
    have he1 : e1 ∈ (SoftcutPassOne.run input (SoftcutInfo.new [c])).extracts := by
      rw [hl]; exact List.mem_cons_self _ _
    refine ⟨e1, rfl, hce, ?_⟩
    rw [passes_extracts, hl]
    simp only [List.map_cons, List.map_nil,
      emitAll_writer_of_nil input e1 (SoftcutPassOne.run_new_writer input _ e1 he1)]

/-- C8, amended. Round trip: for a type-grouped input and the single region that
accepts all coordinates, the two passes send to the writer of that region a
sub-sequence `out` of the input that holds every node version, holds a way
version exactly when some version of the same way in the input references the id
of a node of the input, and holds relation versions of grounded relation ids
only (some member of some version is a node of the input, a way of the input, or
a grounded relation); and `out` is the whole input if and only if every way of
the input has such a version and every relation id of the input is grounded. -/
theorem roundTrip_iff_grounded (input : List Record) (h : typeGrouped input) :
    ∃ out : List Record,
      (SoftcutPassTwo.run input
        (SoftcutPassOne.run input (SoftcutInfo.new [everywhere]))).extracts.map
        (fun e => e.writer) = [out] ∧
      List.Sublist out input ∧
      (∀ n, Record.node n ∈ input → Record.node n ∈ out) ∧
      (∀ w, Record.way w ∈ input →
        (Record.way w ∈ out ↔
          ∃ v ∈ waysOf input, v.id = w.id ∧
            ∃ ref ∈ v.nodes, ∃ n ∈ nodesOf input, n.id = ref)) ∧
      (∀ r, Record.relation r ∈ out → Grounded input r.id) ∧
      (out = input ↔
        ((∀ w ∈ waysOf input, ∃ v ∈ waysOf input, v.id = w.id ∧
            ∃ ref ∈ v.nodes, ∃ n ∈ nodesOf input, n.id = ref) ∧
          ∀ r ∈ relationsOf input, Grounded input r.id)) := by
  obtain ⟨e1, hl, hce, hout⟩ := single_region_passes input everywhere
  have he1 : e1 ∈ (SoftcutPassOne.run input (SoftcutInfo.new [everywhere])).extracts := by
    rw [hl]; exact List.mem_cons_self _ _
  have hnt := SoftcutPassOne.run_node_tracker input [everywhere] e1 he1
  obtain ⟨hwr, _, hj⟩ := SoftcutPassOne.run_typeGrouped input [everywhere] h e1 he1
  have hnode : ∀ n, Record.node n ∈ input → e1.node_tracker.get n.id = true := by
    intro n hn
    exact (hnt n.id).mpr ⟨n, hn, rfl, by rw [hce]; rfl⟩
  -- a tracked way id has a version over a node of the input, and conversely
  have hway : ∀ x, e1.way_tracker.get x = true ↔
      ∃ v ∈ waysOf input, v.id = x ∧ ∃ ref ∈ v.nodes, ∃ n ∈ nodesOf input, n.id = ref := by
    intro x
    rw [hwr.way_iff]
    constructor
    · rintro ⟨v, hv, hid, ref, href, hget⟩
      obtain ⟨n, hn, hnid, _⟩ := (hnt ref).mp hget
      exact ⟨v, (mem_waysOf input v).mpr hv, hid, ref, href, n,
        (mem_nodesOf input n).mpr hn, hnid⟩
    · rintro ⟨v, hv, hid, ref, href, n, hn, hnid⟩
      refine ⟨v, (mem_waysOf input v).mp hv, hid, ref, href, ?_⟩
      rw [← hnid]
      exact hnode n ((mem_nodesOf input n).mp hn)
  -- a tracked relation id is grounded
  have hground : ∀ x, e1.relation_tracker.get x = true → Grounded input x := by
    apply hj (Grounded input)
    intro v hv mb hmb hcase
    rcases hcase with ⟨hty, hget⟩ | ⟨hty, hget⟩ | ⟨hty, hg⟩
    · obtain ⟨n, hn, hnid, _⟩ := (hnt mb.ref).mp hget
      exact Grounded.node v mb n hv hmb hty hn hnid
    · obtain ⟨w, hw, hwid, _⟩ := (hwr.way_iff mb.ref).mp hget
      exact Grounded.way v mb w hv hmb hty hw hwid
    · exact Grounded.relation v mb hv hmb hty hg
  have hwayout : ∀ w, Record.way w ∈ input →
      (Record.way w ∈ input.filter (membership e1) ↔
        ∃ v ∈ waysOf input, v.id = w.id ∧
          ∃ ref ∈ v.nodes, ∃ n ∈ nodesOf input, n.id = ref) := by
    intro w hw
    rw [← hway w.id, List.mem_filter]
    constructor
    · exact fun hm => hm.2
    · exact fun hm => ⟨hw, hm⟩
  have hrelout : ∀ r, Record.relation r ∈ input.filter (membership e1) →
      Grounded input r.id :=
    fun r hr => hground r.id (List.mem_filter.mp hr).2
  refine ⟨input.filter (membership e1), hout, List.filter_sublist _, ?_, hwayout, hrelout, ?_⟩
  · intro n hn
    apply List.mem_filter.mpr
    exact ⟨hn, by simp [membership, hnode n hn]⟩
  · constructor
    · intro heq
      constructor
      · intro w hw
        have hwin := (mem_waysOf input w).mp hw
        apply (hwayout w hwin).mp
        rw [heq]
        exact hwin
      · intro r hr
        apply hrelout
        rw [heq]
        exact (mem_relationsOf input r).mp hr
    · rintro ⟨hways, hrels⟩
      have hall := roundTrip_of_grounded input h hways hrels
      rw [hout] at hall
      exact List.cons.inj hall |>.1

/-- Witness of the amended C8 on scenario C, where relation 600 is grounded
through its member relation 500: the whole input is sent. -/
theorem roundTrip_iff_grounded_witness :
    typeGrouped scenarioC ∧
    (∀ w ∈ waysOf scenarioC, ∃ v ∈ waysOf scenarioC, v.id = w.id ∧
      ∃ ref ∈ v.nodes, ∃ n ∈ nodesOf scenarioC, n.id = ref) ∧
    (∀ r ∈ relationsOf scenarioC, Grounded scenarioC r.id) ∧
    (SoftcutPassTwo.run scenarioC
      (SoftcutPassOne.run scenarioC (SoftcutInfo.new [everywhere]))).extracts.map
      (fun e => e.writer) = [scenarioC] := by
  have g500 : Grounded scenarioC 500 :=
    Grounded.node ⟨500, 1, [⟨'n', 1⟩]⟩ ⟨'n', 1⟩ ⟨1, 1, 0, 0⟩
      (by decide) (by decide) rfl (by decide) rfl
  have g600 : Grounded scenarioC 600 :=
    Grounded.relation ⟨600, 1, [⟨'r', 500⟩]⟩ ⟨'r', 500⟩ (by decide) (by decide) rfl g500
  have hrels : ∀ r ∈ relationsOf scenarioC, Grounded scenarioC r.id := by
    intro r hr
    simp only [relationsOf, scenarioC, List.mem_cons, List.mem_singleton,
      List.not_mem_nil, or_false] at hr
    rcases hr with rfl | rfl
    · exact g500
    · exact g600
  have hways : ∀ w ∈ waysOf scenarioC, ∃ v ∈ waysOf scenarioC, v.id = w.id ∧
      ∃ ref ∈ v.nodes, ∃ n ∈ nodesOf scenarioC, n.id = ref := by decide
  obtain ⟨out, hout, _, _, _, _, hiff⟩ := roundTrip_iff_grounded scenarioC (by decide)
  rw [hout, hiff.mpr ⟨hways, hrels⟩]
  exact ⟨by decide, hways, hrels, rfl⟩

end Softcut
